import Mathlib

/-!
# IntSet: a fixed-capacity, insertion-ordered set of `int`

Shallow embedding of `src/IntSet.cpp`.

* The object state is the pair `(data, used)`: `data` is the whole backing array
  (`int data[MAX_SIZE]`, stale cells included) and `used` the element count.
* `MAX_SIZE` is declared in `IntSet.h`, which is not part of the sources at hand, so every
  operation that mentions it takes it as a parameter.
* A call either returns (`Except.ok`) or stops with a `Fault`: a failed `assert`, an array
  access outside `[0, MAX_SIZE)`, or an exhausted loop budget of the model.
* `int` values are only stored and compared, never computed with, so they are `Int`.
  `used` never goes below zero on any path of the source (`used--` is executed only after
  `contains` returned true), so it is a `Nat`; loop indices that the source decrements are `Int`.
  Index arithmetic (`size() + 1`, `i + 1`) stays within `MAX_SIZE + 1` and is not reduced
  modulo the width of `int`.
* A default-constructed local (`IntSet isC;` in `intersect`) starts with `used = 0` on storage
  whose contents are a parameter of the model.
* An `ostream` is the text written to it so far; `out << v` for an `int` appends the decimal
  rendering of `v` (default formatting flags).
* Loops whose trip count is fixed on entry (`for (i = 0; i < n; i++)` with `i` and `n` untouched
  by the body) recurse on the number of iterations left; the loops of `remove` and `subtract`,
  whose body moves the index, carry a budget and report `outOfFuel` if it runs out.
-/

namespace IntSetModel

/-- The ways in which a call can fail to return a value. -/
inductive Fault where
  /-- An `assert(...)` evaluated to false. -/
  | assertFailed
  /-- An access `data[i]` with `i` outside the array. -/
  | outOfBounds
  /-- The loop budget of the model ran out (shown not to happen where results are claimed). -/
  | outOfFuel
  deriving DecidableEq, Repr

/-- The member variables of the class: `int data[MAX_SIZE]; int used;`. -/
structure IntSet where
  data : List Int
  used : Nat
  deriving DecidableEq, Repr

/-- Read `data[i]` for a non-negative index. -/
def rd (data : List Int) (i : Nat) : Except Fault Int :=
  match data[i]? with
  | some v => .ok v
  | none => .error .outOfBounds

/-- Read `data[i]` for a signed index. -/
def rdI (data : List Int) (i : Int) : Except Fault Int :=
  if i < 0 then .error .outOfBounds else rd data i.toNat

/-- Write `data[i] = v`. -/
def wr (data : List Int) (i : Nat) (v : Int) : Except Fault (List Int) :=
  if i < data.length then .ok (data.set i v) else .error .outOfBounds

/-- The statement `assert(c);`. -/
def cassert (c : Bool) : Except Fault Unit :=
  if c then .ok () else .error .assertFailed

/-- Constructor `IntSet::IntSet() : used(0) {}`: the array keeps whatever `mem` the storage
held. -/
def IntSet.new (mem : List Int) : IntSet := { data := mem, used := 0 }

/-- Member `int IntSet::size() const { return used; }`. -/
def IntSet.size (s : IntSet) : Nat := s.used

/-- Member `bool IntSet::isEmpty() const { return !used; }`. -/
def IntSet.isEmpty (s : IntSet) : Bool := s.used == 0

/-- The loop of `contains`, `for (int i = 0; i < used; i++) if (data[i] == anInt) return true;`,
with `n` the number of iterations still to run (`used - i`). -/
def containsLoop (data : List Int) (anInt : Int) : Nat → Nat → Except Fault Bool
  | 0, _ => .ok false
  | n + 1, i =>
    match rd data i with
    | .error e => .error e
    | .ok v => if v = anInt then .ok true else containsLoop data anInt n (i + 1)

/-- Member `bool IntSet::contains(int anInt) const`. -/
def IntSet.contains (s : IntSet) (anInt : Int) : Except Fault Bool :=
  containsLoop s.data anInt s.used 0

/-- The part of `add` after its assertion (source lines 136-142). -/
def IntSet.addBody (MAX_SIZE : Nat) (s : IntSet) (anInt : Int) : Except Fault (Bool × IntSet) :=
  let newSize := s.size + 1
  match s.contains anInt with
  | .error e => .error e
  | .ok c =>
    if !c && decide (newSize ≤ MAX_SIZE) then
      match wr s.data s.used anInt with
      | .error e => .error e
      | .ok d => .ok (true, { data := d, used := s.used + 1 })
    else .ok (false, s)

/-- Member `bool IntSet::add(int anInt)`: the precondition
`assert(contains(anInt) ? size() <= MAX_SIZE : size() < MAX_SIZE)` followed by the body. -/
def IntSet.add (MAX_SIZE : Nat) (s : IntSet) (anInt : Int) : Except Fault (Bool × IntSet) :=
  match s.contains anInt with
  | .error e => .error e
  | .ok c =>
    match cassert (if c then decide (s.size ≤ MAX_SIZE) else decide (s.size < MAX_SIZE)) with
    | .error e => .error e
    | .ok _ => s.addBody MAX_SIZE anInt

/-- The inner loop of `remove`, `while (i != newUsed) { data[i] = data[i + 1]; i++; }`.
Returns the array and the final `i`. -/
def removeShift (newUsed : Int) : Nat → List Int → Nat → Except Fault (List Int × Nat)
  | 0, data, i => if (i : Int) ≠ newUsed then .error .outOfFuel else .ok (data, i)
  | fuel + 1, data, i =>
    if (i : Int) ≠ newUsed then
      match rd data (i + 1) with
      | .error e => .error e
      | .ok v =>
        match wr data i v with
        | .error e => .error e
        | .ok d => removeShift newUsed fuel d (i + 1)
    else .ok (data, i)

/-- The outer loop of `remove`, `for (int i = 0; i < size(); i++) if (data[i] == anInt) ...`;
`used` is not changed while it runs. -/
def removeLoop (anInt : Int) (newUsed : Int) (used : Nat) :
    Nat → List Int → Nat → Except Fault (List Int)
  | 0, data, i => if i < used then .error .outOfFuel else .ok data
  | fuel + 1, data, i =>
    if i < used then
      match rd data i with
      | .error e => .error e
      | .ok v =>
        if v = anInt then
          match removeShift newUsed used data i with
          | .error e => .error e
          | .ok (d, i1) => removeLoop anInt newUsed used fuel d (i1 + 1)
        else removeLoop anInt newUsed used fuel data (i + 1)
    else .ok data

/-- Member `bool IntSet::remove(int anInt)`. `used--` is reached only when `contains`
returned true, that is with `used ≥ 1`. -/
def IntSet.remove (s : IntSet) (anInt : Int) : Except Fault (Bool × IntSet) :=
  let newUsed : Int := (s.size : Int) - 1
  match s.contains anInt with
  | .error e => .error e
  | .ok true =>
    match removeLoop anInt newUsed s.used s.used s.data 0 with
    | .error e => .error e
    | .ok d => .ok (true, { data := d, used := s.used - 1 })
  | .ok false => .ok (false, s)

/-- Member `void IntSet::reset() { used = 0; }`. -/
def IntSet.reset (s : IntSet) : IntSet := { s with used := 0 }

/-- The inner loop of `subtract` over `j`, with `n` the iterations still to run
(`otherIntSet.size() - j`); it carries the working copy and the outer index `i`, which the
body decrements after each removal. -/
def subtractInner (other : IntSet) : Nat → Nat → IntSet → Int → Except Fault (IntSet × Int)
  | 0, _, isC, i => .ok (isC, i)
  | n + 1, j, isC, i =>
    match rdI isC.data i with
    | .error e => .error e
    | .ok a =>
      match rd other.data j with
      | .error e => .error e
      | .ok b =>
        if a = b then
          match isC.remove a with
          | .error e => .error e
          | .ok (_, isC1) => subtractInner other n (j + 1) isC1 (i - 1)
        else subtractInner other n (j + 1) isC i

/-- The outer loop of `subtract`, `for (int i = 0; i < isC.size(); i++)`. -/
def subtractOuter (other : IntSet) : Nat → IntSet → Int → Except Fault IntSet
  | 0, isC, i => if i < (isC.size : Int) then .error .outOfFuel else .ok isC
  | fuel + 1, isC, i =>
    if i < (isC.size : Int) then
      match subtractInner other other.size 0 isC i with
      | .error e => .error e
      | .ok (isC1, i1) => subtractOuter other fuel isC1 (i1 + 1)
    else .ok isC

/-- Member `IntSet IntSet::subtract(const IntSet &otherIntSet) const`. -/
def IntSet.subtract (s other : IntSet) : Except Fault IntSet :=
  subtractOuter other s.used s 0

/-- The loop of `unionWith`, with `n` the iterations still to run. -/
def unionLoop (MAX_SIZE : Nat) (other : IntSet) : Nat → Nat → IntSet → Except Fault IntSet
  | 0, _, isC => .ok isC
  | n + 1, i, isC =>
    match rd other.data i with
    | .error e => .error e
    | .ok v =>
      match isC.contains v with
      | .error e => .error e
      | .ok c =>
        if !c then
          match rd other.data i with
          | .error e => .error e
          | .ok w =>
            match isC.add MAX_SIZE w with
            | .error e => .error e
            | .ok (_, isC1) => unionLoop MAX_SIZE other n (i + 1) isC1
        else unionLoop MAX_SIZE other n (i + 1) isC

/-- Member `IntSet IntSet::unionWith(const IntSet &otherIntSet) const`. -/
def IntSet.unionWith (MAX_SIZE : Nat) (s other : IntSet) : Except Fault IntSet :=
  match other.subtract s with
  | .error e => .error e
  | .ok diff =>
    match cassert (decide (s.size + diff.size ≤ MAX_SIZE)) with
    | .error e => .error e
    | .ok _ => unionLoop MAX_SIZE other other.size 0 s

/-- The element sequence: the cells `data[0 .. used)`. -/
def IntSet.elems (s : IntSet) : List Int := s.data.take s.used

/-- A valid object: the array has `MAX_SIZE` cells, `used ≤ MAX_SIZE`, and the first `used`
cells are pairwise distinct. -/
def IntSet.Valid (MAX_SIZE : Nat) (s : IntSet) : Prop :=
  s.data.length = MAX_SIZE ∧ s.used ≤ MAX_SIZE ∧ s.elems.Nodup

instance (MAX_SIZE : Nat) (s : IntSet) : Decidable (s.Valid MAX_SIZE) := by
  unfold IntSet.Valid; infer_instance

/-! ## Sequences of calls, and the set of values they leave present -/

/-- The mutating calls of the class. -/
inductive Op where
  | add (x : Int)
  | remove (x : Int)
  | reset
  deriving DecidableEq, Repr

/-- Make one call and keep the object; the boolean result is dropped. -/
def step (MAX_SIZE : Nat) (s : IntSet) : Op → Except Fault IntSet
  | .add x => (s.add MAX_SIZE x).map Prod.snd
  | .remove x => (s.remove x).map Prod.snd
  | .reset => .ok s.reset

/-- Whether `subtract` reads below the array: going through the working copy from the front,
an element that is in `other`, but not as its last element, comes before any element that
stays. -/
def subtractFaults (other : IntSet) : List Int → Bool
  | [] => false
  | r :: rest =>
    if r ∈ other.elems then
      if other.elems.indexOf r + 1 < other.used then true else subtractFaults other rest
    else false

/-! ## `isSubsetOf`, `equal`, `intersect` and `DumpData` -/

/-- The loop of `isSubsetOf`, `for (int i = 0; i < this->size(); i++)
if (!otherIntSet.contains(this->data[i])) return false;`, with `n` the iterations still to
run. -/
def isSubsetLoop (s other : IntSet) : Nat → Nat → Except Fault Bool
  | 0, _ => .ok true
  | n + 1, i =>
    match rd s.data i with
    | .error e => .error e
    | .ok v =>
      match other.contains v with
      | .error e => .error e
      | .ok c => if !c then .ok false else isSubsetLoop s other n (i + 1)

/-- Member `bool IntSet::isSubsetOf(const IntSet &otherIntSet) const`. -/
def IntSet.isSubsetOf (s other : IntSet) : Except Fault Bool :=
  if s.size = 0 then .ok true else isSubsetLoop s other s.size 0

/-- The free function `bool equal(const IntSet &is1, const IntSet &is2)`; the second
`isSubsetOf` is evaluated only when the first returned true (`&&`). -/
def equal (is1 is2 : IntSet) : Except Fault Bool :=
  if is1.size ≠ is2.size then .ok false
  else
    match is1.isSubsetOf is2 with
    | .error e => .error e
    | .ok false => .ok false
    | .ok true =>
      match is2.isSubsetOf is1 with
      | .error e => .error e
      | .ok b => if b then .ok true else .ok false

/-- The inner loop of `intersect` over `j` for a fixed `i`, with `n` the iterations still to
run: on `this->data[i] == otherIntSet.data[j]` it executes
`isC.data[isC.used] = this->data[i]; isC.used++;`. -/
def intersectInner (s other : IntSet) (i : Nat) : Nat → Nat → IntSet → Except Fault IntSet
  | 0, _, isC => .ok isC
  | n + 1, j, isC =>
    match rd s.data i with
    | .error e => .error e
    | .ok a =>
      match rd other.data j with
      | .error e => .error e
      | .ok b =>
        if a = b then
          match wr isC.data isC.used a with
          | .error e => .error e
          | .ok d => intersectInner s other i n (j + 1) { data := d, used := isC.used + 1 }
        else intersectInner s other i n (j + 1) isC

/-- The outer loop of `intersect` over `i`, with `n` the iterations still to run. -/
def intersectOuter (s other : IntSet) : Nat → Nat → IntSet → Except Fault IntSet
  | 0, _, isC => .ok isC
  | n + 1, i, isC =>
    match intersectInner s other i other.size 0 isC with
    | .error e => .error e
    | .ok isC1 => intersectOuter s other n (i + 1) isC1

/-- Member `IntSet IntSet::intersect(const IntSet &otherIntSet) const`. The local `IntSet isC;`
is default-constructed on storage holding `mem`. -/
def IntSet.intersect (mem : List Int) (s other : IntSet) : Except Fault IntSet :=
  intersectOuter s other s.size 0 (IntSet.new mem)

/-- The separator written by `DumpData`: two spaces. -/
def dumpSep : String := "  "

/-- The text `out << v` appends for an `int` under the stream's default formatting: the
decimal digits, with a leading minus sign for negative values. -/
def render (v : Int) : String := toString v

/-- The loop of `DumpData`, `for (int i = 1; i < used; ++i) out << "  " << data[i];`, with `n`
the iterations still to run; `out` is the text written so far. -/
def dumpLoop (data : List Int) : Nat → Nat → String → Except Fault String
  | 0, _, out => .ok out
  | n + 1, i, out =>
    match rd data i with
    | .error e => .error e
    | .ok v => dumpLoop data n (i + 1) (out ++ dumpSep ++ render v)

/-- Member `void IntSet::DumpData(ostream &out) const`; the stream is the text written so
far. -/
def IntSet.DumpData (s : IntSet) (out : String) : Except Fault String :=
  if 0 < s.used then
    match rd s.data 0 with
    | .error e => .error e
    | .ok v => dumpLoop s.data (s.used - 1) 1 (out ++ render v)
  else .ok out

/-- The specification's description of `subtract`, not taken from the source: on a copy of
the invoking set, call `remove(b)` once for each `b` of the given sequence, in order. -/
def removeEach (s : IntSet) : List Int → Except Fault IntSet
  | [] => .ok s
  | b :: bs =>
    match s.remove b with
    | .error e => .error e
    | .ok (_, s1) => removeEach s1 bs

/-- The loop of `unionWith` (`unionLoop`) with a record of what each `isC.add(...)` call
returned, in call order. -/
def unionLoopAdds (MAX_SIZE : Nat) (other : IntSet) :
    Nat → Nat → IntSet → List Bool → Except Fault (IntSet × List Bool)
  | 0, _, isC, log => .ok (isC, log)
  | n + 1, i, isC, log =>
    match rd other.data i with
    | .error e => .error e
    | .ok v =>
      match isC.contains v with
      | .error e => .error e
      | .ok c =>
        if !c then
          match rd other.data i with
          | .error e => .error e
          | .ok w =>
            match isC.add MAX_SIZE w with
            | .error e => .error e
            | .ok (r, isC1) => unionLoopAdds MAX_SIZE other n (i + 1) isC1 (log ++ [r])
        else unionLoopAdds MAX_SIZE other n (i + 1) isC log

/-! ## Array accesses and the loops of `contains` and `remove` -/

theorem rd_of_lt {data : List Int} {i : Nat} (h : i < data.length) :
    rd data i = .ok (data[i]) := by
  simp [rd, List.getElem?_eq_getElem h]

theorem wr_of_lt {data : List Int} {i : Nat} (h : i < data.length) (v : Int) :
    wr data i v = .ok (data.set i v) := by
  simp [wr, h]

theorem removeShift_spec (m : Nat) :
    ∀ (k fuel : Nat) (data : List Int) (i : Nat), i + k = m → m < data.length → k ≤ fuel →
      ∃ d, removeShift (m : Int) fuel data i = .ok (d, m) ∧ d.length = data.length ∧
        ∀ j, d[j]? = if i ≤ j ∧ j < m then data[j + 1]? else data[j]?
  | 0, fuel, data, i, him, _, _ => by
    have hi : i = m := by omega
    subst hi
    refine ⟨data, ?_, rfl, ?_⟩
    · cases fuel <;> simp [removeShift]
    · intro j
      have : ¬ (i ≤ j ∧ j < i) := by omega
      simp [this]
  | k + 1, 0, _, _, _, _, hf => by omega
  | k + 1, fuel + 1, data, i, him, hm, hf => by
    have hne : (i : Int) ≠ (m : Int) := by omega
    have h1 : i + 1 < data.length := by omega
    have h0 : i < data.length := by omega
    obtain ⟨d, hd, hlen, hget⟩ :=
      removeShift_spec m k fuel (data.set i data[i + 1]) (i + 1) (by omega)
        (by simpa using hm) (by omega)
    refine ⟨d, ?_, by simpa using hlen, ?_⟩
    · rw [removeShift, if_pos hne, rd_of_lt h1]
      simp only
      rw [wr_of_lt h0]
      simpa using hd
    · intro j
      rw [hget j]
      by_cases hj : i + 1 ≤ j ∧ j < m
      · have h2 : i ≤ j ∧ j < m := by omega
        rw [if_pos hj, if_pos h2, List.getElem?_set]
        have : ¬ i = j + 1 := by omega
        simp [this]
      · rw [if_neg hj, List.getElem?_set]
        by_cases hij : i = j
        · subst hij
          have h2 : i ≤ i ∧ i < m := by omega
          rw [if_pos rfl, if_pos h0, if_pos h2, List.getElem?_eq_getElem h1]
        · have h2 : ¬ (i ≤ j ∧ j < m) := by omega
          rw [if_neg hij, if_neg h2]

theorem removeLoop_done (x : Int) (newUsed : Int) (used : Nat) (fuel : Nat) (data : List Int)
    (i : Nat) (h : ¬ i < used) : removeLoop x newUsed used fuel data i = .ok data := by
  cases fuel <;> simp [removeLoop, h]

theorem removeLoop_spec (x : Int) (m : Nat) (data : List Int) (idx : Nat) (hidx : idx ≤ m)
    (hm : m < data.length) (hx : data[idx]? = some x) :
    ∀ (fuel i : Nat), i ≤ idx → (∀ k, i ≤ k → k < idx → data[k]? ≠ some x) → idx - i < fuel →
      ∃ d, removeLoop x (m : Int) (m + 1) fuel data i = .ok d ∧ d.length = data.length ∧
        ∀ j, d[j]? = if idx ≤ j ∧ j < m then data[j + 1]? else data[j]?
  | 0, _, _, _, hf => by omega
  | fuel + 1, i, hi, hno, hf => by
    have hlt : i < m + 1 := by omega
    have h0 : i < data.length := by omega
    rw [removeLoop, if_pos hlt, rd_of_lt h0]
    simp only
    by_cases hv : data[i] = x
    · have hii : i = idx := by
        by_contra hne
        exact hno i (le_refl _) (by omega) (by rw [List.getElem?_eq_getElem h0, hv])
      subst hii
      obtain ⟨d, hd, hlen, hget⟩ :=
        removeShift_spec m (m - i) (m + 1) data i (by omega) hm (by omega)
      refine ⟨d, ?_, hlen, hget⟩
      rw [if_pos hv, hd]
      simp only
      exact removeLoop_done x m (m + 1) fuel d (m + 1) (by omega)
    · have hii : i ≠ idx := by
        intro h
        subst h
        rw [List.getElem?_eq_getElem h0] at hx
        exact hv (Option.some.inj hx)
      rw [if_neg hv]
      exact removeLoop_spec x m data idx hidx hm hx fuel (i + 1) (by omega)
        (fun k hk1 hk2 => hno k (by omega) hk2) (by omega)


/-! ## What `contains`, `add` and `remove` compute on a valid object -/

theorem containsLoop_eq (data : List Int) (x : Int) :
    ∀ (n i : Nat), i + n ≤ data.length →
      containsLoop data x n i = .ok (decide (x ∈ (data.drop i).take n))
  | 0, i, _ => by simp [containsLoop]
  | n + 1, i, h => by
    have hi : i < data.length := by omega
    have ih := containsLoop_eq data x n (i + 1) (by omega)
    rw [containsLoop, rd_of_lt hi]
    simp only
    rw [List.drop_eq_getElem_cons hi, List.take_succ_cons]
    by_cases hv : data[i] = x
    · simp [hv]
    · rw [if_neg hv, ih]
      have : x ≠ data[i] := fun h => hv h.symm
      simp [this]

theorem contains_eq {MAX_SIZE : Nat} {s : IntSet} (hv : s.Valid MAX_SIZE) (x : Int) :
    s.contains x = .ok (decide (x ∈ s.elems)) := by
  have := containsLoop_eq s.data x s.used 0 (by have := hv.1; have := hv.2.1; omega)
  simpa [IntSet.contains, IntSet.elems] using this

theorem elems_length {MAX_SIZE : Nat} {s : IntSet} (hv : s.Valid MAX_SIZE) :
    s.elems.length = s.used := by
  have := hv.1; have := hv.2.1
  simp [IntSet.elems]; omega

theorem elems_getElem? (s : IntSet) (j : Nat) :
    s.elems[j]? = if j < s.used then s.data[j]? else none := by
  simp [IntSet.elems, List.getElem?_take]

theorem add_of_mem {MAX_SIZE : Nat} {s : IntSet} (hv : s.Valid MAX_SIZE) {x : Int}
    (hx : x ∈ s.elems) : s.add MAX_SIZE x = .ok (false, s) := by
  have h2 := hv.2.1
  simp [IntSet.add, IntSet.addBody, contains_eq hv, hx, cassert, IntSet.size, h2]

theorem add_of_not_mem {MAX_SIZE : Nat} {s : IntSet} (hv : s.Valid MAX_SIZE) {x : Int}
    (hx : x ∉ s.elems) (hlt : s.used < MAX_SIZE) :
    s.add MAX_SIZE x = .ok (true, { data := s.data.set s.used x, used := s.used + 1 }) := by
  have h1 := hv.1
  have hlt2 : s.used < s.data.length := by omega
  have hle : s.used + 1 ≤ MAX_SIZE := hlt
  simp [IntSet.add, IntSet.addBody, contains_eq hv, hx, cassert, IntSet.size, hlt, hle,
    wr_of_lt hlt2]

theorem add_of_full {MAX_SIZE : Nat} {s : IntSet} (hv : s.Valid MAX_SIZE) {x : Int}
    (hx : x ∉ s.elems) (hfull : s.used = MAX_SIZE) :
    s.add MAX_SIZE x = .error .assertFailed ∧ s.addBody MAX_SIZE x = .ok (false, s) := by
  constructor
  · simp [IntSet.add, contains_eq hv, hx, cassert, IntSet.size, hfull]
  · simp [IntSet.addBody, contains_eq hv, hx, IntSet.size, hfull]

theorem elems_set_used {MAX_SIZE : Nat} {s : IntSet} (hv : s.Valid MAX_SIZE) (x : Int)
    (hlt : s.used < MAX_SIZE) :
    IntSet.elems { data := s.data.set s.used x, used := s.used + 1 } = s.elems ++ [x] := by
  have h1 := hv.1
  have hlt2 : s.used < s.data.length := by omega
  apply List.ext_getElem?
  intro j
  rw [elems_getElem?]
  simp only
  rw [List.getElem?_set, List.getElem?_append, elems_length hv, elems_getElem?]
  by_cases hj : j < s.used
  · have : ¬ s.used = j := by omega
    have : j < s.used + 1 := by omega
    simp [*]
  · by_cases hj2 : s.used = j
    · subst hj2
      simp [hlt2]
    · have : ¬ j < s.used + 1 := by omega
      have : 1 ≤ j - s.used := by omega
      simp [*]

theorem valid_add {MAX_SIZE : Nat} {s : IntSet} (hv : s.Valid MAX_SIZE) {x : Int}
    (hx : x ∉ s.elems) (hlt : s.used < MAX_SIZE) :
    IntSet.Valid MAX_SIZE { data := s.data.set s.used x, used := s.used + 1 } := by
  refine ⟨by simpa using hv.1, hlt, ?_⟩
  rw [elems_set_used hv x hlt]
  exact List.Nodup.append hv.2.2 (List.nodup_singleton x) (by simpa using hx)

theorem remove_of_not_mem {MAX_SIZE : Nat} {s : IntSet} (hv : s.Valid MAX_SIZE) {x : Int}
    (hx : x ∉ s.elems) : s.remove x = .ok (false, s) := by
  simp [IntSet.remove, contains_eq hv, hx]

theorem remove_of_mem {MAX_SIZE : Nat} {s : IntSet} (hv : s.Valid MAX_SIZE) {x : Int}
    (hx : x ∈ s.elems) :
    ∃ d, s.remove x = .ok (true, { data := d, used := s.used - 1 }) ∧ d.length = MAX_SIZE ∧
      1 ≤ s.used ∧ d.take (s.used - 1) = s.elems.erase x := by
  have h1 := hv.1
  have h2 := hv.2.1
  have hlen := elems_length hv
  have hidx : s.elems.indexOf x < s.elems.length := List.indexOf_lt_length.mpr hx
  have hpos : 1 ≤ s.used := by omega
  have hget : s.elems[s.elems.indexOf x] = x := List.getElem_indexOf hidx
  have hx' : s.data[s.elems.indexOf x]? = some x := by
    have := elems_getElem? s (s.elems.indexOf x)
    rw [if_pos (by omega), List.getElem?_eq_getElem hidx, hget] at this
    exact this.symm
  have hno : ∀ k, 0 ≤ k → k < s.elems.indexOf x → s.data[k]? ≠ some x := by
    intro k _ hk hcon
    have hk2 : k < s.elems.length := by omega
    have h3 := elems_getElem? s k
    rw [if_pos (by omega), hcon, List.getElem?_eq_getElem hk2] at h3
    have h4 : s.elems[k] = x := Option.some.inj h3
    have h5 := List.indexOf_getElem hv.2.2 k hk2
    rw [h4] at h5
    omega
  obtain ⟨d, hd, hdl, hdg⟩ := removeLoop_spec x (s.used - 1) s.data (s.elems.indexOf x)
    (by omega) (by omega) hx' (s.used) 0 (Nat.zero_le _) hno (by omega)
  refine ⟨d, ?_, by omega, hpos, ?_⟩
  · have e1 : ((s.used - 1 : Nat) : Int) = (s.used : Int) - 1 := by omega
    have e2 : s.used - 1 + 1 = s.used := by omega
    rw [e1, e2] at hd
    simp [IntSet.remove, contains_eq hv, hx, IntSet.size, hd]
  · rw [← List.eraseIdx_indexOf_eq_erase]
    apply List.ext_getElem?
    intro j
    rw [List.getElem?_take, List.getElem?_eraseIdx, hdg j, elems_getElem?, elems_getElem?]
    by_cases hj : j < s.elems.indexOf x
    · have a1 : j < s.used - 1 := by omega
      have a2 : ¬ (s.elems.indexOf x ≤ j ∧ j < s.used - 1) := by omega
      have a3 : j < s.used := by omega
      simp [*]
    · by_cases hj2 : j < s.used - 1
      · have a2 : s.elems.indexOf x ≤ j ∧ j < s.used - 1 := by omega
        have a3 : j + 1 < s.used := by omega
        simp [*]
      · have a3 : ¬ j + 1 < s.used := by omega
        simp [*]

theorem valid_remove {MAX_SIZE : Nat} {s : IntSet} (hv : s.Valid MAX_SIZE) {x : Int}
    {d : List Int} (hdl : d.length = MAX_SIZE) (hd : d.take (s.used - 1) = s.elems.erase x) :
    IntSet.Valid MAX_SIZE { data := d, used := s.used - 1 } := by
  refine ⟨hdl, by have := hv.2.1; simp only; omega, ?_⟩
  show (d.take (s.used - 1)).Nodup
  rw [hd]
  exact hv.2.2.erase x


/-! ## Claims about `add`, `remove` and `contains` -/

/-- C1: on a valid set that is not full, `add(x)` of a value that is not contained returns
true; the new element sequence is the old one with `x` appended, `used` grows by one, the
cell written is `data[used]` and no other cell changes. -/
theorem add_appends (MAX_SIZE : Nat) (s : IntSet) (x : Int) (hv : s.Valid MAX_SIZE)
    (hlt : s.size < MAX_SIZE) (hx : s.contains x = .ok false) :
    ∃ s1, s.add MAX_SIZE x = .ok (true, s1) ∧ s1.elems = s.elems ++ [x] ∧
      s1.size = s.size + 1 ∧ s1.data = s.data.set s.used x ∧
      (∀ j, j < s.size → s1.data[j]? = s.data[j]?) ∧ s1.Valid MAX_SIZE := by
  have hx' : x ∉ s.elems := by
    rw [contains_eq hv] at hx
    simpa using hx
  refine ⟨_, add_of_not_mem hv hx' hlt, elems_set_used hv x hlt, rfl, rfl, ?_,
    valid_add hv hx' hlt⟩
  intro j hj
  have : ¬ s.used = j := by simp only [IntSet.size] at hj; omega
  simp [List.getElem?_set, this]

theorem add_appends_witness :
    ∃ s1, (IntSet.mk [1, 2, 0] 2).add 3 5 = .ok (true, s1) ∧
      s1.elems = (IntSet.mk [1, 2, 0] 2).elems ++ [5] ∧
      s1.size = (IntSet.mk [1, 2, 0] 2).size + 1 ∧
      s1.data = (IntSet.mk [1, 2, 0] 2).data.set (IntSet.mk [1, 2, 0] 2).used 5 ∧
      (∀ j, j < (IntSet.mk [1, 2, 0] 2).size → s1.data[j]? = (IntSet.mk [1, 2, 0] 2).data[j]?) ∧
      s1.Valid 3 :=
  add_appends 3 (IntSet.mk [1, 2, 0] 2) 5 (by decide) (by decide) (by rfl)

/-- C2 as stated fails: on the full valid set `[1, 2]` with `MAX_SIZE = 2`, `add(3)` of the
absent value 3 does not return false; the precondition assertion of `add` fails. -/
theorem add_full_not_reported_false :
    (IntSet.mk [1, 2] 2).Valid 2 ∧ (IntSet.mk [1, 2] 2).size = 2 ∧
      (IntSet.mk [1, 2] 2).contains 3 = .ok false ∧
      (IntSet.mk [1, 2] 2).add 2 3 = .error .assertFailed ∧
      (IntSet.mk [1, 2] 2).add 2 3 ≠ .ok (false, IntSet.mk [1, 2] 2) := by
  refine ⟨by decide, rfl, rfl, rfl, ?_⟩
  intro h
  cases h

/-- C2, amended: on a full valid set, `add(x)` of a value that is not contained changes
nothing, because the call stops at its precondition assertion `size() < MAX_SIZE`; the code
after the assertion, run on its own, returns false and leaves the object as it was. -/
theorem add_full_asserts (MAX_SIZE : Nat) (s : IntSet) (x : Int) (hv : s.Valid MAX_SIZE)
    (hfull : s.size = MAX_SIZE) (hx : s.contains x = .ok false) :
    s.add MAX_SIZE x = .error .assertFailed ∧ s.addBody MAX_SIZE x = .ok (false, s) := by
  have hx' : x ∉ s.elems := by
    rw [contains_eq hv] at hx
    simpa using hx
  exact add_of_full hv hx' hfull

theorem add_full_asserts_witness :
    (IntSet.mk [7, 8, 9] 3).add 3 4 = .error .assertFailed ∧
      (IntSet.mk [7, 8, 9] 3).addBody 3 4 = .ok (false, IntSet.mk [7, 8, 9] 3) :=
  add_full_asserts 3 (IntSet.mk [7, 8, 9] 3) 4 (by decide) (by rfl) (by rfl)

/-- C3 as stated fails: on the full valid set `[1, 2]` with `MAX_SIZE = 2`, `add(3)` does not
return, so no `contains(3)` after it returns true; and the code of `add` after its assertion
leaves the set without 3. -/
theorem add_then_contains_fails_when_full :
    (IntSet.mk [1, 2] 2).Valid 2 ∧
      (¬ ∃ r, (IntSet.mk [1, 2] 2).add 2 3 = .ok r ∧ r.2.contains 3 = .ok true) ∧
      (∃ r, (IntSet.mk [1, 2] 2).addBody 2 3 = .ok r ∧ r.2.contains 3 = .ok false) := by
  refine ⟨by decide, ?_, ⟨_, rfl, rfl⟩⟩
  rintro ⟨r, h, _⟩
  cases h

/-- C3, amended: on a valid set, if `x` is already contained or the set is not full, then
`add(x)` returns and the following `contains(x)` returns true. -/
theorem add_then_contains (MAX_SIZE : Nat) (s : IntSet) (x : Int) (hv : s.Valid MAX_SIZE)
    (h : s.contains x = .ok true ∨ s.size < MAX_SIZE) :
    ∃ b s1, s.add MAX_SIZE x = .ok (b, s1) ∧ s1.contains x = .ok true := by
  by_cases hx : x ∈ s.elems
  · exact ⟨false, s, add_of_mem hv hx, by simp [contains_eq hv, hx]⟩
  · have hlt : s.used < MAX_SIZE := by
      rcases h with h | h
      · rw [contains_eq hv] at h
        simp [hx] at h
      · exact h
    refine ⟨true, _, add_of_not_mem hv hx hlt, ?_⟩
    rw [contains_eq (valid_add hv hx hlt), elems_set_used hv x hlt]
    simp

theorem add_then_contains_witness :
    ∃ b s1, (IntSet.mk [7, 8, 0] 2).add 3 4 = .ok (b, s1) ∧ s1.contains 4 = .ok true :=
  add_then_contains 3 (IntSet.mk [7, 8, 0] 2) 4 (by decide) (Or.inr (by decide))

/-- C4: on a valid set, `add(x)` of a contained value returns false and returns the object
unchanged (array and `used`); and for every `x`, the outcome of `add(x); add(x)` is the
outcome of a single `add(x)`: the same final object, or the same failure. -/
theorem add_idempotent (MAX_SIZE : Nat) (s : IntSet) (x : Int) (hv : s.Valid MAX_SIZE) :
    (s.contains x = .ok true → s.add MAX_SIZE x = .ok (false, s)) ∧
      (s.add MAX_SIZE x).bind (fun r => (r.2.add MAX_SIZE x).map Prod.snd) =
        (s.add MAX_SIZE x).map Prod.snd := by
  constructor
  · intro hx
    rw [contains_eq hv] at hx
    exact add_of_mem hv (by simpa using hx)
  · by_cases hx : x ∈ s.elems
    · simp [add_of_mem hv hx, Except.bind, Except.map]
    · by_cases hlt : s.used < MAX_SIZE
      · have hmem : x ∈ IntSet.elems { data := s.data.set s.used x, used := s.used + 1 } := by
          rw [elems_set_used hv x hlt]
          simp
        simp [add_of_not_mem hv hx hlt, Except.bind, Except.map,
          add_of_mem (valid_add hv hx hlt) hmem]
      · have hfull : s.used = MAX_SIZE := by have := hv.2.1; omega
        simp [(add_of_full hv hx hfull).1, Except.bind, Except.map]

theorem add_idempotent_witness :
    ((IntSet.mk [7, 8, 0] 2).contains 8 = .ok true →
        (IntSet.mk [7, 8, 0] 2).add 3 8 = .ok (false, IntSet.mk [7, 8, 0] 2)) ∧
      ((IntSet.mk [7, 8, 0] 2).add 3 8).bind (fun r => (r.2.add 3 8).map Prod.snd) =
        ((IntSet.mk [7, 8, 0] 2).add 3 8).map Prod.snd :=
  add_idempotent 3 (IntSet.mk [7, 8, 0] 2) 8 (by decide)


/-- C5: on a valid set, `remove(x)` returns exactly `contains(x)`. When `x` is contained the
new element sequence is the old one with `x` erased (equivalently, the old one filtered by
`≠ x`, so the others keep their relative order), `used` drops by one and the set stays valid;
when `x` is not contained the object is returned unchanged. -/
theorem remove_spec (MAX_SIZE : Nat) (s : IntSet) (x : Int) (hv : s.Valid MAX_SIZE) :
    s.contains x = .ok (decide (x ∈ s.elems)) ∧
      ∃ s1, s.remove x = .ok (decide (x ∈ s.elems), s1) ∧
        (x ∈ s.elems → s1.elems = s.elems.erase x ∧ s1.elems = s.elems.filter (fun y => y ≠ x) ∧
          s1.size + 1 = s.size ∧ s1.Valid MAX_SIZE) ∧
        (x ∉ s.elems → s1 = s) := by
  refine ⟨contains_eq hv x, ?_⟩
  by_cases hx : x ∈ s.elems
  · obtain ⟨d, hd, hdl, hpos, htake⟩ := remove_of_mem hv hx
    refine ⟨_, by simpa [hx] using hd, ?_, fun h => absurd hx h⟩
    intro _
    refine ⟨htake, ?_, ?_, valid_remove hv hdl htake⟩
    · show d.take (s.used - 1) = _
      rw [htake, hv.2.2.erase_eq_filter]
      congr 1
      funext y
      rw [Bool.eq_iff_iff]
      simp
    · show s.used - 1 + 1 = s.used
      omega
  · exact ⟨s, by simpa [hx] using remove_of_not_mem hv hx, fun h => absurd h hx, fun _ => rfl⟩

theorem remove_spec_witness :
    (IntSet.mk [3, 1, 7, 8, 0] 4).contains 1 =
        .ok (decide ((1 : Int) ∈ (IntSet.mk [3, 1, 7, 8, 0] 4).elems)) ∧
      ∃ s1, (IntSet.mk [3, 1, 7, 8, 0] 4).remove 1 =
          .ok (decide ((1 : Int) ∈ (IntSet.mk [3, 1, 7, 8, 0] 4).elems), s1) ∧
        ((1 : Int) ∈ (IntSet.mk [3, 1, 7, 8, 0] 4).elems →
          s1.elems = (IntSet.mk [3, 1, 7, 8, 0] 4).elems.erase 1 ∧
          s1.elems = (IntSet.mk [3, 1, 7, 8, 0] 4).elems.filter (fun y => y ≠ 1) ∧
          s1.size + 1 = (IntSet.mk [3, 1, 7, 8, 0] 4).size ∧ s1.Valid 5) ∧
        ((1 : Int) ∉ (IntSet.mk [3, 1, 7, 8, 0] 4).elems → s1 = IntSet.mk [3, 1, 7, 8, 0] 4) :=
  remove_spec 5 (IntSet.mk [3, 1, 7, 8, 0] 4) 1 (by decide)

/-- C6: on a valid set that contains `x`, `remove(x)` returns true and `contains(x)` on the
resulting object returns false. -/
theorem remove_then_contains (MAX_SIZE : Nat) (s : IntSet) (x : Int) (hv : s.Valid MAX_SIZE)
    (hx : s.contains x = .ok true) :
    ∃ s1, s.remove x = .ok (true, s1) ∧ s1.contains x = .ok false := by
  have hx' : x ∈ s.elems := by
    rw [contains_eq hv] at hx
    simpa using hx
  obtain ⟨d, hd, hdl, _, htake⟩ := remove_of_mem hv hx'
  refine ⟨_, hd, ?_⟩
  have hv1 := valid_remove hv hdl htake
  rw [contains_eq hv1]
  have : x ∉ IntSet.elems { data := d, used := s.used - 1 } := by
    show x ∉ d.take (s.used - 1)
    rw [htake]
    exact hv.2.2.not_mem_erase
  simp [this]

theorem remove_then_contains_witness :
    ∃ s1, (IntSet.mk [3, 1, 7, 8, 0] 4).remove 7 = .ok (true, s1) ∧ s1.contains 7 = .ok false :=
  remove_then_contains 5 (IntSet.mk [3, 1, 7, 8, 0] 4) 7 (by decide) (by rfl)

/-- C8: on a valid set that contains `x`, `remove(x)` followed by `add(x)` both return true
and leave the other elements in their previous relative order followed by `x`; and for any
capacity of at least 2, any initial storage and `a ≠ b`, the calls
`add(a); add(b); remove(a); add(a)` on a new set all return true and leave the order `[b, a]`. -/
theorem remove_add_moves_to_end (MAX_SIZE : Nat) :
    (∀ (s : IntSet) (x : Int), s.Valid MAX_SIZE → s.contains x = .ok true →
      ∃ s1 s2, s.remove x = .ok (true, s1) ∧ s1.add MAX_SIZE x = .ok (true, s2) ∧
        s2.elems = s.elems.filter (fun y => y ≠ x) ++ [x]) ∧
    (∀ (mem : List Int) (a b : Int), mem.length = MAX_SIZE → 2 ≤ MAX_SIZE → a ≠ b →
      ∃ s1 s2 s3 s4, (IntSet.new mem).add MAX_SIZE a = .ok (true, s1) ∧
        s1.add MAX_SIZE b = .ok (true, s2) ∧ s2.remove a = .ok (true, s3) ∧
        s3.add MAX_SIZE a = .ok (true, s4) ∧ s4.elems = [b, a]) := by
  have key : ∀ (s : IntSet) (x : Int), s.Valid MAX_SIZE → x ∈ s.elems →
      ∃ s1 s2, s.remove x = .ok (true, s1) ∧ s1.add MAX_SIZE x = .ok (true, s2) ∧
        s2.elems = s.elems.filter (fun y => y ≠ x) ++ [x] := by
    intro s x hv hx
    obtain ⟨d, hd, hdl, hpos, htake⟩ := remove_of_mem hv hx
    have hv1 := valid_remove hv hdl htake
    have hnot : x ∉ IntSet.elems { data := d, used := s.used - 1 } := by
      show x ∉ d.take (s.used - 1)
      rw [htake]
      exact hv.2.2.not_mem_erase
    have hlt : s.used - 1 < MAX_SIZE := by have := hv.2.1; omega
    refine ⟨_, _, hd, add_of_not_mem hv1 hnot hlt, ?_⟩
    rw [elems_set_used hv1 x hlt]
    show d.take (s.used - 1) ++ [x] = _
    rw [htake, hv.2.2.erase_eq_filter]
    congr 2
    funext y
    rw [Bool.eq_iff_iff]
    simp
  constructor
  · intro s x hv hx
    rw [contains_eq hv] at hx
    exact key s x hv (by simpa using hx)
  · intro mem a b hlen h2 hab
    have hv0 : (IntSet.new mem).Valid MAX_SIZE :=
      ⟨hlen, Nat.zero_le _, by simp [IntSet.new, IntSet.elems]⟩
    have he0 : (IntSet.new mem).elems = [] := by simp [IntSet.new, IntSet.elems]
    have ha0 : a ∉ (IntSet.new mem).elems := by simp [he0]
    have hlt0 : (IntSet.new mem).used < MAX_SIZE := by simp only [IntSet.new]; omega
    have hv1 := valid_add hv0 ha0 hlt0
    have he1 := elems_set_used hv0 a hlt0
    rw [he0] at he1
    have hb1 : b ∉ IntSet.elems
        { data := (IntSet.new mem).data.set (IntSet.new mem).used a,
          used := (IntSet.new mem).used + 1 } := by
      rw [he1]
      simpa using fun h => hab h.symm
    have hlt1 : (IntSet.new mem).used + 1 < MAX_SIZE := by simp only [IntSet.new]; omega
    have hv2 := valid_add hv1 hb1 hlt1
    have he2 := elems_set_used hv1 b hlt1
    rw [he1] at he2
    obtain ⟨s3, s4, h3, h4, he4⟩ := key _ a hv2 (by rw [he2]; simp)
    refine ⟨_, _, s3, s4, add_of_not_mem hv0 ha0 hlt0, add_of_not_mem hv1 hb1 hlt1, h3, h4, ?_⟩
    rw [he4, he2]
    have hba : ¬ b = a := fun h => hab h.symm
    simp [List.filter, hab, hba]


theorem remove_add_moves_to_end_witness :
    (∃ s1 s2, (IntSet.mk [3, 1, 7, 8, 0] 4).remove 1 = .ok (true, s1) ∧
        s1.add 5 1 = .ok (true, s2) ∧
        s2.elems = (IntSet.mk [3, 1, 7, 8, 0] 4).elems.filter (fun y => y ≠ 1) ++ [1]) ∧
      (∃ s1 s2 s3 s4, (IntSet.new [0, 0, 0]).add 3 5 = .ok (true, s1) ∧
        s1.add 3 6 = .ok (true, s2) ∧ s2.remove 5 = .ok (true, s3) ∧
        s3.add 3 5 = .ok (true, s4) ∧ s4.elems = [6, 5]) :=
  ⟨(remove_add_moves_to_end 5).1 (IntSet.mk [3, 1, 7, 8, 0] 4) 1 (by decide) (by rfl),
    (remove_add_moves_to_end 3).2 [0, 0, 0] 5 6 (by rfl) (by decide) (by decide)⟩

/-! ## Claims about sequences of calls -/

theorem rdI_neg (data : List Int) : rdI data (-1) = .error .outOfBounds := by
  simp [rdI]

theorem rdI_ofNat (data : List Int) (i : Nat) : rdI data (i : Int) = rd data i := by
  simp [rdI]

theorem subtractInner_neg (other : IntSet) (n j : Nat) (isC : IntSet) :
    subtractInner other (n + 1) j isC (-1) = .error .outOfBounds := by
  rw [subtractInner, rdI_neg]

theorem subtractInner_skip (other isC : IntSet) (i : Nat) (hi : i < isC.data.length) (j0 : Nat)
    (hj0 : j0 < other.data.length) (heq : isC.data[i] = other.data[j0]) :
    ∀ (d j n : Nat), j + d = j0 → j0 < j + n →
      (∀ k, j ≤ k → k < j0 → other.data[k]? ≠ some (isC.data[i])) →
      subtractInner other n j isC (i : Int) =
        match isC.remove (isC.data[i]) with
        | .error e => .error e
        | .ok (_, isC1) => subtractInner other (n - d - 1) (j0 + 1) isC1 ((i : Int) - 1)
  | 0, j, 0, _, h2, _ => by omega
  | 0, j, n + 1, h1, _, _ => by
    have hj : j = j0 := by omega
    subst hj
    rw [subtractInner, rdI_ofNat, rd_of_lt hi, rd_of_lt hj0]
    simp [heq]
  | d + 1, j, 0, _, h2, _ => by omega
  | d + 1, j, n + 1, h1, h2, hno => by
    have hj : j < other.data.length := by omega
    have hne : ¬ isC.data[i] = other.data[j] := by
      intro h
      exact hno j (le_refl _) (by omega) (by rw [List.getElem?_eq_getElem hj, h])
    rw [subtractInner, rdI_ofNat, rd_of_lt hi, rd_of_lt hj]
    simp only
    rw [if_neg hne, subtractInner_skip other isC i hi j0 hj0 heq d (j + 1) n (by omega) (by omega)
      (fun k hk1 hk2 => hno k (by omega) hk2)]
    have : n + 1 - (d + 1) - 1 = n - d - 1 := by omega
    rw [this]


theorem not_mem_elems_iff {MAX_SIZE : Nat} {A : IntSet} (hA : A.Valid MAX_SIZE) (a : Int) :
    a ∉ A.elems ↔ ∀ k, k < A.used → A.data[k]? ≠ some a := by
  have hl := elems_length hA
  constructor
  · intro h k hk hcon
    apply h
    have : A.elems[k]? = some a := by rw [elems_getElem?, if_pos hk, hcon]
    exact List.getElem?_mem this
  · intro h hmem
    obtain ⟨k, hk, hka⟩ := List.getElem_of_mem hmem
    apply h k (by omega)
    have := elems_getElem? A k
    rw [if_pos (by omega), List.getElem?_eq_getElem hk, hka] at this
    exact this.symm

theorem subtractInner_nomatch (other isC : IntSet) (i : Nat) (hi : i < isC.data.length) :
    ∀ (n j : Nat), j + n ≤ other.data.length →
      (∀ k, j ≤ k → k < j + n → other.data[k]? ≠ some (isC.data[i])) →
      subtractInner other n j isC (i : Int) = .ok (isC, (i : Int))
  | 0, _, _, _ => by rw [subtractInner]
  | n + 1, j, hlen, hno => by
    have hj : j < other.data.length := by omega
    have hne : ¬ isC.data[i] = other.data[j] := by
      intro h
      exact hno j (le_refl _) (by omega) (by rw [List.getElem?_eq_getElem hj, h])
    rw [subtractInner, rdI_ofNat, rd_of_lt hi, rd_of_lt hj]
    simp only
    rw [if_neg hne]
    exact subtractInner_nomatch other isC i hi n (j + 1) (by omega)
      (fun k hk1 hk2 => hno k (by omega) (by omega))

/-- One pass of the inner loop of `subtract` when the element at `i` is not in `other`:
nothing changes. -/
theorem subtractInner_absent {MAX_SIZE : Nat} {A isC : IntSet} (hA : A.Valid MAX_SIZE)
    (hC : isC.Valid MAX_SIZE) {i : Nat} {a : Int} (hi : i < isC.used)
    (ha : isC.data[i]? = some a) (hnot : a ∉ A.elems) :
    subtractInner A A.size 0 isC (i : Int) = .ok (isC, (i : Int)) := by
  have hil : i < isC.data.length := by have := hC.1; have := hC.2.1; omega
  have hav : isC.data[i] = a := by
    rw [List.getElem?_eq_getElem hil] at ha
    exact Option.some.inj ha
  apply subtractInner_nomatch A isC i hil A.size 0
  · have := hA.1; have := hA.2.1; simp only [IntSet.size]; omega
  · intro k _ hk
    rw [hav]
    exact (not_mem_elems_iff hA a).mp hnot k (by simpa [IntSet.size] using hk)


theorem elems_indexOf {MAX_SIZE : Nat} {s : IntSet} (hv : s.Valid MAX_SIZE) {i : Nat} {a : Int}
    (hi : i < s.used) (ha : s.data[i]? = some a) : a ∈ s.elems ∧ s.elems.indexOf a = i := by
  have hl := elems_length hv
  have hi' : i < s.elems.length := by omega
  have h1 : s.elems[i] = a := by
    have := elems_getElem? s i
    rw [if_pos hi, ha, List.getElem?_eq_getElem hi'] at this
    exact Option.some.inj this
  refine ⟨h1 ▸ List.getElem_mem hi', ?_⟩
  rw [← h1]
  exact List.indexOf_getElem hv.2.2 i hi'

/-- One pass of the inner loop of `subtract` when the element `a` at `i` is in `other`: `a` is
removed and `i` decremented. If `a` is the last element of `other` the pass ends there; if
not, the pass goes on with `i - 1`, which is outside the array when `i = 0`. -/
theorem subtractInner_present {MAX_SIZE : Nat} {A isC : IntSet} (hA : A.Valid MAX_SIZE)
    (hC : isC.Valid MAX_SIZE) {i : Nat} {a : Int} (hi : i < isC.used)
    (ha : isC.data[i]? = some a) (hmem : a ∈ A.elems) :
    ∃ isC1, isC.remove a = .ok (true, isC1) ∧ isC1.Valid MAX_SIZE ∧ isC1.used + 1 = isC.used ∧
      isC1.elems = isC.elems.eraseIdx i ∧
      (A.elems.indexOf a + 1 = A.used →
        subtractInner A A.size 0 isC (i : Int) = .ok (isC1, (i : Int) - 1)) ∧
      (A.elems.indexOf a + 1 < A.used → i = 0 →
        subtractInner A A.size 0 isC (i : Int) = .error .outOfBounds) ∧
      (A.elems.indexOf a + 1 < A.used → ∀ (i1 : Nat) (b : Int), i = i1 + 1 →
        isC.data[i1]? = some b → b ∉ A.elems →
        subtractInner A A.size 0 isC (i : Int) = .ok (isC1, (i : Int) - 1)) := by
  have hAl := hA.1
  have hA2 := hA.2.1
  have hCl := hC.1
  have hC2 := hC.2.1
  have hAe := elems_length hA
  have hCe := elems_length hC
  have hil : i < isC.data.length := by omega
  have hav : isC.data[i] = a := by
    rw [List.getElem?_eq_getElem hil] at ha
    exact Option.some.inj ha
  obtain ⟨hmemC, hidxC⟩ := elems_indexOf hC hi ha
  have hj0 : A.elems.indexOf a < A.elems.length := List.indexOf_lt_length.mpr hmem
  have hj0l : A.elems.indexOf a < A.data.length := by omega
  have hAj : A.data[A.elems.indexOf a]? = some a := by
    have := elems_getElem? A (A.elems.indexOf a)
    rw [if_pos (by omega), List.getElem?_eq_getElem hj0, List.getElem_indexOf hj0] at this
    exact this.symm
  have heq : isC.data[i] = A.data[A.elems.indexOf a] := by
    rw [List.getElem?_eq_getElem hj0l] at hAj
    rw [hav]
    exact (Option.some.inj hAj).symm
  have hno : ∀ k, 0 ≤ k → k < A.elems.indexOf a → A.data[k]? ≠ some (isC.data[i]) := by
    intro k _ hk hcon
    rw [hav] at hcon
    have := (elems_indexOf hA (by omega : k < A.used) hcon).2
    omega
  obtain ⟨d, hd, hdl, hpos, htake⟩ := remove_of_mem hC hmemC
  have hv1 := valid_remove hC hdl htake
  have he1 : IntSet.elems { data := d, used := isC.used - 1 } = isC.elems.eraseIdx i := by
    show d.take (isC.used - 1) = _
    rw [htake, ← List.eraseIdx_indexOf_eq_erase, hidxC]
  have hskip := subtractInner_skip A isC i hil (A.elems.indexOf a) hj0l heq
    (A.elems.indexOf a) 0 A.used (by omega) (by omega) hno
  rw [hav, hd] at hskip
  simp only at hskip
  refine ⟨_, hd, hv1, by simp only; omega, he1, ?_, ?_, ?_⟩
  · intro hlast
    have : A.used - A.elems.indexOf a - 1 = 0 := by omega
    rw [this, subtractInner] at hskip
    exact hskip
  · intro hmore hi0
    obtain ⟨n, hn⟩ : ∃ n, A.used - A.elems.indexOf a - 1 = n + 1 :=
      ⟨A.used - A.elems.indexOf a - 2, by omega⟩
    subst hi0
    have hneg : ((0 : Nat) : Int) - 1 = -1 := by simp
    rw [hn, hneg, subtractInner_neg] at hskip
    exact hskip
  · intro hmore i1 b hi1 hb hbnot
    subst hi1
    have hcast : ((i1 + 1 : Nat) : Int) - 1 = (i1 : Int) := by omega
    rw [hcast] at hskip ⊢
    rw [show A.size = A.used from rfl, hskip]
    have hi1l : i1 < d.length := by omega
    have hdb : d[i1]? = some b := by
      have h1 : (d.take (isC.used - 1))[i1]? = (isC.elems.eraseIdx (i1 + 1))[i1]? :=
        congrArg (fun l => l[i1]?) he1
      rw [List.getElem?_take, if_pos (by omega), List.getElem?_eraseIdx, if_pos (by omega),
        elems_getElem?, if_pos (by omega), hb] at h1
      exact h1
    have hdv : d[i1] = b := by
      rw [List.getElem?_eq_getElem hi1l] at hdb
      exact Option.some.inj hdb
    apply subtractInner_nomatch A { data := d, used := isC.used - 1 } i1 hi1l
    · omega
    · intro k _ hk
      show A.data[k]? ≠ some d[i1]
      rw [hdv]
      exact (not_mem_elems_iff hA b).mp hbnot k (by omega)


theorem subtractOuter_done (other : IntSet) (fuel : Nat) (isC : IntSet) (i : Int)
    (h : ¬ i < (isC.size : Int)) : subtractOuter other fuel isC i = .ok isC := by
  cases fuel <;> simp [subtractOuter, h]

theorem elems_split {MAX_SIZE : Nat} {s : IntSet} (hv : s.Valid MAX_SIZE) {i : Nat}
    (hi : i < s.used) :
    ∃ a, s.data[i]? = some a ∧ s.elems.drop i = a :: s.elems.drop (i + 1) ∧
      s.elems.take (i + 1) = s.elems.take i ++ [a] := by
  have hl := elems_length hv
  have hi' : i < s.elems.length := by omega
  refine ⟨s.elems[i], ?_, List.drop_eq_getElem_cons hi', ?_⟩
  · have := elems_getElem? s i
    rw [if_pos hi, List.getElem?_eq_getElem hi'] at this
    exact this.symm
  · rw [List.take_succ, List.getElem?_eq_getElem hi']
    rfl

theorem subtractOuter_spec {MAX_SIZE : Nat} {A : IntSet} (hA : A.Valid MAX_SIZE) :
    ∀ (fuel : Nat) (isC : IntSet) (i : Nat), isC.Valid MAX_SIZE → i ≤ isC.used →
      isC.used - i ≤ fuel → (∀ b ∈ isC.elems.take i, b ∉ A.elems) →
      (i = 0 ∧ subtractFaults A isC.elems = true →
        subtractOuter A fuel isC (i : Int) = .error .outOfBounds) ∧
      (¬ (i = 0 ∧ subtractFaults A isC.elems = true) →
        ∃ s1, subtractOuter A fuel isC (i : Int) = .ok s1 ∧ s1.Valid MAX_SIZE ∧
          s1.elems = isC.elems.take i ++
            (isC.elems.drop i).filter (fun y => decide (y ∉ A.elems)))
  | fuel, isC, i, hC, hi, hf, hinv => by
    have hl := elems_length hC
    by_cases hend : i = isC.used
    · have hdone : subtractOuter A fuel isC (i : Int) = .ok isC :=
        subtractOuter_done A fuel isC i (by simp only [IntSet.size]; omega)
      have hnil : i = 0 → isC.elems = [] := by
        intro h0
        apply List.eq_nil_of_length_eq_zero
        omega
      constructor
      · rintro ⟨h0, hfl⟩
        rw [hnil h0] at hfl
        simp [subtractFaults] at hfl
      · intro _
        refine ⟨isC, hdone, hC, ?_⟩
        rw [hend, ← hl]
        simp
    · have hlt : i < isC.used := by omega
      obtain ⟨a, ha, hdrop, htk⟩ := elems_split hC hlt
      match fuel, hf with
      | 0, hf => omega
      | f + 1, hf =>
        have hcond : (i : Int) < ((isC.size : Nat) : Int) := by
          simp only [IntSet.size]; omega
        have hstep : subtractOuter A (f + 1) isC (i : Int) =
            match subtractInner A A.size 0 isC (i : Int) with
            | .error e => .error e
            | .ok (isC1, i1) => subtractOuter A f isC1 (i1 + 1) := by
          rw [subtractOuter, if_pos hcond]
        have h0drop : i = 0 → isC.elems = a :: isC.elems.drop 1 := by
          intro h0
          subst h0
          simpa using hdrop
        by_cases hmem : a ∈ A.elems
        · obtain ⟨isC1, _, hv1, hu1, he1, hlast, hoob, hprev⟩ :=
            subtractInner_present hA hC hlt ha hmem
          have he1' : isC1.elems = isC.elems.take i ++ isC.elems.drop (i + 1) := by
            rw [he1, List.eraseIdx_eq_take_drop_succ]
          have htk1 : isC1.elems.take i = isC.elems.take i := by
            rw [he1', List.take_append_of_le_length (by simp; omega)]
            simp
          have hdr1 : isC1.elems.drop i = isC.elems.drop (i + 1) := by
            rw [he1', List.drop_append_of_le_length (by simp; omega)]
            have : (isC.elems.take i).drop i = [] := by
              apply List.drop_eq_nil_of_le
              simp
            rw [this]
            simp
          have hfilt : (isC.elems.drop i).filter (fun y => decide (y ∉ A.elems)) =
              (isC.elems.drop (i + 1)).filter (fun y => decide (y ∉ A.elems)) := by
            rw [hdrop, List.filter_cons_of_neg (by simpa using hmem)]
          have ih := subtractOuter_spec hA f isC1 i hv1 (by omega) (by omega)
            (by rw [htk1]; exact hinv)
          rw [htk1, hdr1, ← hfilt] at ih
          by_cases hi0 : i = 0
          · by_cases hl0 : A.elems.indexOf a + 1 < A.used
            · have hfl : subtractFaults A isC.elems = true := by
                rw [h0drop hi0]
                simp [subtractFaults, hmem, hl0]
              refine ⟨fun _ => ?_, fun hn => absurd ⟨hi0, hfl⟩ hn⟩
              rw [hstep, hoob hl0 hi0]
            · have hl1 : A.elems.indexOf a + 1 = A.used := by
                have := List.indexOf_lt_length.mpr hmem
                have := elems_length hA
                omega
              have hrest : isC1.elems = isC.elems.drop 1 := by
                rw [he1', hi0]
                simp
              have hfl : subtractFaults A isC.elems = subtractFaults A isC1.elems := by
                rw [hrest]
                conv_lhs => rw [h0drop hi0]
                simp [subtractFaults, hmem, hl0]
              have hrun : subtractOuter A (f + 1) isC (i : Int) =
                  subtractOuter A f isC1 (i : Int) := by
                rw [hstep, hlast hl1]
                simp
              rw [hrun, hfl]
              exact ih
          · obtain ⟨i1, hi1⟩ : ∃ i1, i = i1 + 1 := ⟨i - 1, by omega⟩
            have hl' := elems_length hC
            obtain ⟨b, hb, _, htkb⟩ := elems_split hC (by omega : i1 < isC.used)
            have hbnot : b ∉ A.elems := by
              apply hinv
              rw [hi1, htkb]
              simp
            have hinner : subtractInner A A.size 0 isC (i : Int) = .ok (isC1, (i : Int) - 1) := by
              by_cases hl0 : A.elems.indexOf a + 1 < A.used
              · exact hprev hl0 i1 b hi1 hb hbnot
              · apply hlast
                have := List.indexOf_lt_length.mpr hmem
                have := elems_length hA
                omega
            have hrun : subtractOuter A (f + 1) isC (i : Int) =
                subtractOuter A f isC1 (i : Int) := by
              rw [hstep, hinner]
              simp
            rw [hrun]
            exact ⟨fun h => absurd h.1 hi0, fun _ => ih.2 (fun h => hi0 h.1)⟩
        · have hinner := subtractInner_absent hA hC hlt ha hmem
          have hrun : subtractOuter A (f + 1) isC (i : Int) =
              subtractOuter A f isC ((i + 1 : Nat) : Int) := by
            rw [hstep, hinner]
            simp
          have ih := subtractOuter_spec hA f isC (i + 1) hC (by omega) (by omega)
            (by
              intro b hb
              rw [htk, List.mem_append] at hb
              rcases hb with hb | hb
              · exact hinv b hb
              · rw [List.mem_singleton] at hb
                rw [hb]
                exact hmem)
          have hfl : ¬ (i = 0 ∧ subtractFaults A isC.elems = true) := by
            rintro ⟨h0, hfl⟩
            rw [h0drop h0] at hfl
            simp [subtractFaults, hmem] at hfl
          refine ⟨fun h => absurd h hfl, fun _ => ?_⟩
          obtain ⟨s1, hs1, hv1, he1⟩ := ih.2 (by omega)
          refine ⟨s1, by rw [hrun]; exact hs1, hv1, ?_⟩
          rw [he1, htk, hdrop, List.filter_cons_of_pos (by simpa using hmem)]
          simp


/-- What `subtract` does on valid operands: it reads below the array exactly in the cases
singled out by `subtractFaults`, and otherwise returns the elements of the invoking set that
are not in `other`, in their order. -/
theorem subtract_spec {MAX_SIZE : Nat} {A B : IntSet} (hA : A.Valid MAX_SIZE)
    (hB : B.Valid MAX_SIZE) :
    (subtractFaults A B.elems = true → B.subtract A = .error .outOfBounds) ∧
    (subtractFaults A B.elems = false →
      ∃ s1, B.subtract A = .ok s1 ∧ s1.Valid MAX_SIZE ∧
        s1.elems = B.elems.filter (fun y => decide (y ∉ A.elems))) := by
  have h := subtractOuter_spec hA B.used B 0 hB (Nat.zero_le _) (by omega) (by simp)
  constructor
  · intro hf
    exact h.1 ⟨rfl, hf⟩
  · intro hf
    obtain ⟨s1, hs, hv, he⟩ := h.2 (by simp [hf])
    exact ⟨s1, hs, hv, by simpa using he⟩

theorem unionLoop_spec {MAX_SIZE : Nat} {B : IntSet} (hB : B.Valid MAX_SIZE) :
    ∀ (n i : Nat) (isC : IntSet), isC.Valid MAX_SIZE → i + n = B.used →
      isC.used + ((B.elems.drop i).filter (fun y => decide (y ∉ isC.elems))).length ≤ MAX_SIZE →
      ∃ s1, unionLoop MAX_SIZE B n i isC = .ok s1 ∧ s1.Valid MAX_SIZE ∧
        s1.elems = isC.elems ++ (B.elems.drop i).filter (fun y => decide (y ∉ isC.elems))
  | 0, i, isC, hC, hin, _ => by
    have hl := elems_length hB
    refine ⟨isC, by rw [unionLoop], hC, ?_⟩
    have : B.elems.drop i = [] := List.drop_eq_nil_of_le (by omega)
    rw [this]
    simp
  | n + 1, i, isC, hC, hin, hfit => by
    have hl := elems_length hB
    have hi : i < B.used := by omega
    obtain ⟨b, hb, hdrop, _⟩ := elems_split hB hi
    have hil : i < B.data.length := by have := hB.1; have := hB.2.1; omega
    have hrd : rd B.data i = .ok b := by
      rw [rd_of_lt hil]
      rw [List.getElem?_eq_getElem hil] at hb
      rw [Option.some.inj hb]
    have hbnot : b ∉ B.elems.drop (i + 1) := by
      have hnd : (B.elems.drop i).Nodup := List.Nodup.sublist (List.drop_sublist _ _) hB.2.2
      rw [hdrop] at hnd
      exact (List.nodup_cons.mp hnd).1
    by_cases hmem : b ∈ isC.elems
    · have hfilt : (B.elems.drop i).filter (fun y => decide (y ∉ isC.elems)) =
          (B.elems.drop (i + 1)).filter (fun y => decide (y ∉ isC.elems)) := by
        rw [hdrop, List.filter_cons_of_neg (by simpa using hmem)]
      rw [hfilt] at hfit ⊢
      obtain ⟨s1, hs, hv, he⟩ := unionLoop_spec hB n (i + 1) isC hC (by omega) hfit
      refine ⟨s1, ?_, hv, he⟩
      rw [unionLoop, hrd]
      simp only
      rw [contains_eq hC]
      simpa [hmem] using hs
    · have hfilt : (B.elems.drop i).filter (fun y => decide (y ∉ isC.elems)) =
          b :: (B.elems.drop (i + 1)).filter (fun y => decide (y ∉ isC.elems)) := by
        rw [hdrop, List.filter_cons_of_pos (by simpa using hmem)]
      rw [hfilt] at hfit ⊢
      have hlt : isC.used < MAX_SIZE := by
        simp only [List.length_cons] at hfit
        omega
      have hv1 := valid_add hC hmem hlt
      have he1 := elems_set_used hC b hlt
      have hsame : (B.elems.drop (i + 1)).filter (fun y => decide (y ∉ isC.elems ++ [b])) =
          (B.elems.drop (i + 1)).filter (fun y => decide (y ∉ isC.elems)) := by
        apply List.filter_congr
        intro y hy
        have : y ≠ b := fun h => hbnot (h ▸ hy)
        simp [this]
      obtain ⟨s1, hs, hv, he⟩ := unionLoop_spec hB n (i + 1) _ hv1 (by omega)
        (by
          rw [he1, hsame]
          simp only [List.length_cons] at hfit
          show isC.used + 1 + _ ≤ MAX_SIZE
          omega)
      refine ⟨s1, ?_, hv, ?_⟩
      · rw [unionLoop, hrd]
        simp only
        rw [contains_eq hC]
        simpa [hmem, add_of_not_mem hC hmem hlt] using hs
      · rw [he, he1, hsame]
        simp

/-- What `unionWith` does on valid operands: a read below the array inside
`otherIntSet.subtract(*this)` in the cases singled out by `subtractFaults`; otherwise an
assertion failure when the distinct values do not fit, and otherwise the elements of the
invoking set followed by those of `otherIntSet` that it does not hold. -/
theorem unionWith_spec {MAX_SIZE : Nat} {A B : IntSet} (hA : A.Valid MAX_SIZE)
    (hB : B.Valid MAX_SIZE) :
    (subtractFaults A B.elems = true → A.unionWith MAX_SIZE B = .error .outOfBounds) ∧
    (subtractFaults A B.elems = false →
      MAX_SIZE < A.size + (B.elems.filter (fun y => decide (y ∉ A.elems))).length →
      A.unionWith MAX_SIZE B = .error .assertFailed) ∧
    (subtractFaults A B.elems = false →
      A.size + (B.elems.filter (fun y => decide (y ∉ A.elems))).length ≤ MAX_SIZE →
      ∃ s1, A.unionWith MAX_SIZE B = .ok s1 ∧ s1.Valid MAX_SIZE ∧
        s1.elems = A.elems ++ B.elems.filter (fun y => decide (y ∉ A.elems))) := by
  obtain ⟨hs1, hs2⟩ := subtract_spec hA hB
  refine ⟨fun hf => ?_, fun hf hbig => ?_, fun hf hfit => ?_⟩
  · simp [IntSet.unionWith, hs1 hf]
  · obtain ⟨d, hd, hdv, hde⟩ := hs2 hf
    have hdl : d.size = (B.elems.filter (fun y => decide (y ∉ A.elems))).length := by
      rw [← hde, elems_length hdv]
      rfl
    have : ¬ A.size + d.size ≤ MAX_SIZE := by omega
    simp [IntSet.unionWith, hd, cassert, this]
  · obtain ⟨d, hd, hdv, hde⟩ := hs2 hf
    have hdl : d.size = (B.elems.filter (fun y => decide (y ∉ A.elems))).length := by
      rw [← hde, elems_length hdv]
      rfl
    have hle : A.size + d.size ≤ MAX_SIZE := by omega
    obtain ⟨s1, hs, hv, he⟩ := unionLoop_spec hB B.used 0 A hA (by omega)
      (by simpa [IntSet.size] using hfit)
    refine ⟨s1, ?_, hv, by simpa using he⟩
    simp [IntSet.unionWith, hd, cassert, hle]
    exact hs

/-! ## Claims about `unionWith` -/

theorem subtract_first_matched_early {MAX_SIZE : Nat} {A B : IntSet} (hA : A.Valid MAX_SIZE)
    (hB : B.Valid MAX_SIZE) {j : Nat} (hj : j + 1 < A.used) (hB0 : 0 < B.used)
    (h : B.data[0]? = A.data[j]?) : B.subtract A = .error .outOfBounds := by
  have hAl := hA.1
  have hA2 := hA.2.1
  have hBl := hB.1
  have hB2 := hB.2.1
  have hi : 0 < B.data.length := by omega
  have hj0 : j < A.data.length := by omega
  have heq : B.data[0] = A.data[j] := by
    rw [List.getElem?_eq_getElem hi, List.getElem?_eq_getElem hj0] at h
    exact Option.some.inj h
  have hAe := elems_length hA
  have hno : ∀ k, 0 ≤ k → k < j → A.data[k]? ≠ some (B.data[0]) := by
    intro k _ hk hcon
    have hk1 : k < A.elems.length := by omega
    have hj1 : j < A.elems.length := by omega
    have e1 : A.elems[k] = A.data[k] := by simp [IntSet.elems]
    have e2 : A.elems[j] = A.data[j] := by simp [IntSet.elems]
    have hk2 : k < A.data.length := by omega
    rw [List.getElem?_eq_getElem hk2] at hcon
    have e3 : A.elems[k] = A.elems[j] := by
      rw [e1, e2, ← heq]
      exact Option.some.inj hcon
    have := (List.Nodup.getElem_inj_iff hA.2.2).mp e3
    omega
  have hmem : B.data[0] ∈ B.elems := by
    have hBe := elems_length hB
    have h0 : 0 < B.elems.length := by omega
    have : B.elems[0] = B.data[0] := by simp [IntSet.elems]
    rw [← this]
    exact List.getElem_mem h0
  obtain ⟨d, hd, _, _, _⟩ := remove_of_mem hB hmem
  have hskip := subtractInner_skip A B 0 hi j hj0 heq j 0 A.used (by omega) (by omega) hno
  rw [hd] at hskip
  simp only at hskip
  obtain ⟨n, hn⟩ : ∃ n, A.used - j - 1 = n + 1 := ⟨A.used - j - 2, by omega⟩
  rw [hn] at hskip
  have hneg : ((0 : Nat) : Int) - 1 = -1 := by simp
  rw [hneg, subtractInner_neg] at hskip
  obtain ⟨f, hf⟩ : ∃ f, B.used = f + 1 := ⟨B.used - 1, by omega⟩
  have hlt : (0 : Int) < ((f + 1 : Nat) : Int) := by omega
  have hskip' : subtractInner A A.size 0 B 0 = .error .outOfBounds := by
    simpa [IntSet.size] using hskip
  rw [IntSet.subtract, hf, subtractOuter]
  simp only [IntSet.size, hf]
  rw [if_pos hlt]
  simp only [IntSet.size] at hskip'
  rw [hskip']

/-- C9: the code does not deliver the claimed union for all valid operands. Whenever the
first element of `B` occurs in `A` before `A`'s last element, the call `B.subtract(A)` inside
the assertion of `A.unionWith(B)` removes that element at `i = 0`, decrements `i` to -1 and
then reads `isC.data[-1]`: the call stops with an access outside the array, whatever the
capacity. -/
theorem unionWith_reads_below_array (MAX_SIZE : Nat) (A B : IntSet) (hA : A.Valid MAX_SIZE)
    (hB : B.Valid MAX_SIZE) (j : Nat) (hj : j + 1 < A.size) (hB0 : 0 < B.size)
    (h : B.data[0]? = A.data[j]?) :
    B.subtract A = .error .outOfBounds ∧ A.unionWith MAX_SIZE B = .error .outOfBounds := by
  have hs := subtract_first_matched_early hA hB hj hB0 h
  exact ⟨hs, by simp [IntSet.unionWith, hs]⟩

theorem unionWith_reads_below_array_witness :
    (IntSet.mk [3, 4, 0, 0] 2).subtract (IntSet.mk [3, 1, 0, 0] 2) = .error .outOfBounds ∧
      (IntSet.mk [3, 1, 0, 0] 2).unionWith 4 (IntSet.mk [3, 4, 0, 0] 2) = .error .outOfBounds :=
  unionWith_reads_below_array 4 (IntSet.mk [3, 1, 0, 0] 2) (IntSet.mk [3, 4, 0, 0] 2)
    (by decide) (by decide) 0 (by decide) (by decide) (by rfl)

/-- C10: with `MAX_SIZE = 2`, `A = [3, 1]` and `B = [3, 4]` hold three distinct values, more
than the capacity, yet `A.unionWith(B)` does not stop at its assertion: evaluating the
asserted expression, `B.subtract(A)` reads `isC.data[-1]` and the call stops with an access
outside the array. -/
theorem unionWith_overflow_not_asserted :
    (IntSet.mk [3, 1] 2).Valid 2 ∧ (IntSet.mk [3, 4] 2).Valid 2 ∧
      2 < ((IntSet.mk [3, 1] 2).elems ++ (IntSet.mk [3, 4] 2).elems).dedup.length ∧
      (IntSet.mk [3, 1] 2).unionWith 2 (IntSet.mk [3, 4] 2) = .error .outOfBounds ∧
      (IntSet.mk [3, 1] 2).unionWith 2 (IntSet.mk [3, 4] 2) ≠ .error .assertFailed := by
  refine ⟨by decide, by decide, by decide, rfl, ?_⟩
  intro h
  cases h

/-! ## `isSubsetOf`, `equal` and `reset` -/

theorem isSubsetLoop_eq {MAX_SIZE : Nat} {A B : IntSet} (hA : A.Valid MAX_SIZE)
    (hB : B.Valid MAX_SIZE) :
    ∀ (n i : Nat), i + n = A.used →
      isSubsetLoop A B n i = .ok ((A.elems.drop i).all (fun x => decide (x ∈ B.elems)))
  | 0, i, h => by
    have hl := elems_length hA
    have : A.elems.drop i = [] := List.drop_eq_nil_of_le (by omega)
    rw [isSubsetLoop, this]
    rfl
  | n + 1, i, h => by
    obtain ⟨a, ha, hdrop, _⟩ := elems_split hA (by omega : i < A.used)
    have hil : i < A.data.length := by have := hA.1; have := hA.2.1; omega
    have hrd : rd A.data i = .ok a := by
      rw [rd_of_lt hil]
      rw [List.getElem?_eq_getElem hil] at ha
      rw [Option.some.inj ha]
    rw [isSubsetLoop, hrd]
    simp only
    rw [contains_eq hB, hdrop, List.all_cons]
    simp only
    by_cases hmem : a ∈ B.elems
    · rw [isSubsetLoop_eq hA hB n (i + 1) (by omega)]
      simp [hmem]
    · simp [hmem]

theorem isSubsetOf_eq {MAX_SIZE : Nat} {A B : IntSet} (hA : A.Valid MAX_SIZE)
    (hB : B.Valid MAX_SIZE) :
    A.isSubsetOf B = .ok (A.elems.all (fun x => decide (x ∈ B.elems))) := by
  unfold IntSet.isSubsetOf
  by_cases h0 : A.size = 0
  · have hl := elems_length hA
    have : A.elems = [] := List.eq_nil_of_length_eq_zero (by rw [hl]; exact h0)
    rw [if_pos h0, this]
    rfl
  · rw [if_neg h0]
    have := isSubsetLoop_eq hA hB A.used 0 (by omega)
    simpa [IntSet.size] using this

theorem mem_elems_iff_contains {MAX_SIZE : Nat} {s : IntSet} (hv : s.Valid MAX_SIZE) (x : Int) :
    s.contains x = .ok true ↔ x ∈ s.elems := by
  rw [contains_eq hv]
  simp

theorem equal_eq {MAX_SIZE : Nat} {A B : IntSet} (hA : A.Valid MAX_SIZE)
    (hB : B.Valid MAX_SIZE) :
    equal A B = .ok (decide (A.used = B.used) &&
      (A.elems.all (fun x => decide (x ∈ B.elems)) &&
        B.elems.all (fun x => decide (x ∈ A.elems)))) := by
  unfold equal
  rw [isSubsetOf_eq hA hB, isSubsetOf_eq hB hA]
  simp only [IntSet.size]
  by_cases hs : A.used = B.used
  · rw [if_neg (by simpa using hs)]
    cases h1 : A.elems.all (fun x => decide (x ∈ B.elems)) <;>
      cases h2 : B.elems.all (fun x => decide (x ∈ A.elems)) <;> simp [hs]
  · rw [if_pos hs]
    simp [hs]

theorem used_eq_of_same_elems {MAX_SIZE : Nat} {A B : IntSet} (hA : A.Valid MAX_SIZE)
    (hB : B.Valid MAX_SIZE) (h : ∀ x, x ∈ A.elems ↔ x ∈ B.elems) : A.used = B.used := by
  have hfs : A.elems.toFinset = B.elems.toFinset := by
    ext x
    simp [h x]
  have h1 := List.toFinset_card_of_nodup hA.2.2
  have h2 := List.toFinset_card_of_nodup hB.2.2
  rw [elems_length hA] at h1
  rw [elems_length hB] at h2
  rw [← h1, ← h2, hfs]

/-- C13: on valid sets, `A.isSubsetOf(B)` returns true exactly when every value that
`A.contains` reports is also reported by `B.contains`; a set of size 0 is a subset of every
valid set, and every valid set is a subset of itself. -/
theorem isSubsetOf_spec (MAX_SIZE : Nat) (A B : IntSet) (hA : A.Valid MAX_SIZE)
    (hB : B.Valid MAX_SIZE) :
    (∃ r, A.isSubsetOf B = .ok r ∧
      (r = true ↔ ∀ x, A.contains x = .ok true → B.contains x = .ok true)) ∧
    (A.size = 0 → A.isSubsetOf B = .ok true) ∧ A.isSubsetOf A = .ok true := by
  refine ⟨⟨_, isSubsetOf_eq hA hB, ?_⟩, ?_, ?_⟩
  · rw [List.all_eq_true]
    constructor
    · intro h x hx
      rw [mem_elems_iff_contains hA] at hx
      rw [mem_elems_iff_contains hB]
      simpa using h x hx
    · intro h x hx
      have := h x ((mem_elems_iff_contains hA x).mpr hx)
      rw [mem_elems_iff_contains hB] at this
      simpa using this
  · intro h0
    simp [IntSet.isSubsetOf, h0]
  · rw [isSubsetOf_eq hA hA, List.all_eq_true.mpr]
    intro x hx
    simpa using hx

theorem isSubsetOf_spec_witness :
    (∃ r, (IntSet.mk [1, 2, 0, 0] 2).isSubsetOf (IntSet.mk [2, 3, 1, 0] 3) = .ok r ∧
      (r = true ↔ ∀ x, (IntSet.mk [1, 2, 0, 0] 2).contains x = .ok true →
        (IntSet.mk [2, 3, 1, 0] 3).contains x = .ok true)) ∧
    ((IntSet.mk [1, 2, 0, 0] 2).size = 0 →
      (IntSet.mk [1, 2, 0, 0] 2).isSubsetOf (IntSet.mk [2, 3, 1, 0] 3) = .ok true) ∧
    (IntSet.mk [1, 2, 0, 0] 2).isSubsetOf (IntSet.mk [1, 2, 0, 0] 2) = .ok true :=
  isSubsetOf_spec 4 (IntSet.mk [1, 2, 0, 0] 2) (IntSet.mk [2, 3, 1, 0] 3) (by decide) (by decide)

/-- C14: on valid sets, `equal(a, b)` returns true exactly when `a.contains` and `b.contains`
report the same values; so sets whose element sequences are permutations of each other compare
equal, `equal(a, a)` is true, and `equal(a, b)` and `equal(b, a)` give the same result. -/
theorem equal_spec (MAX_SIZE : Nat) (A B : IntSet) (hA : A.Valid MAX_SIZE)
    (hB : B.Valid MAX_SIZE) :
    (∃ r, equal A B = .ok r ∧
      (r = true ↔ ∀ x, A.contains x = .ok true ↔ B.contains x = .ok true)) ∧
    (A.elems.Perm B.elems → equal A B = .ok true) ∧
    equal A A = .ok true ∧ equal A B = equal B A := by
  have key : (∀ x, x ∈ A.elems ↔ x ∈ B.elems) → equal A B = .ok true := by
    intro h
    have hu := used_eq_of_same_elems hA hB h
    have h1 : A.elems.all (fun x => decide (x ∈ B.elems)) = true := by
      rw [List.all_eq_true]
      intro x hx
      simpa using (h x).mp hx
    have h2 : B.elems.all (fun x => decide (x ∈ A.elems)) = true := by
      rw [List.all_eq_true]
      intro x hx
      simpa using (h x).mpr hx
    rw [equal_eq hA hB, h1, h2]
    simp [hu]
  refine ⟨⟨_, equal_eq hA hB, ?_⟩, ?_, ?_, ?_⟩
  · constructor
    · intro h x
      simp only [Bool.and_eq_true, List.all_eq_true, decide_eq_true_eq] at h
      rw [mem_elems_iff_contains hA, mem_elems_iff_contains hB]
      exact ⟨fun hx => h.2.1 x hx, fun hx => h.2.2 x hx⟩
    · intro h
      have h' : ∀ x, x ∈ A.elems ↔ x ∈ B.elems := by
        intro x
        rw [← mem_elems_iff_contains hA, ← mem_elems_iff_contains hB]
        exact h x
      have := key h'
      rw [equal_eq hA hB] at this
      exact Except.ok.inj this
  · intro hp
    exact key (fun x => hp.mem_iff)
  · rw [equal_eq hA hA]
    have h1 : A.elems.all (fun x => decide (x ∈ A.elems)) = true := by
      rw [List.all_eq_true]
      intro x hx
      simpa using hx
    simp [h1]
  · rw [equal_eq hA hB, equal_eq hB hA]
    congr 1
    have : decide (A.used = B.used) = decide (B.used = A.used) := by
      by_cases h : A.used = B.used
      · simp [h]
      · have h' : ¬ B.used = A.used := fun e => h e.symm
        simp [h, h']
    rw [this, Bool.and_comm (A.elems.all _)]

theorem equal_spec_witness :
    (∃ r, equal (IntSet.mk [1, 2, 0] 2) (IntSet.mk [2, 1, 7] 2) = .ok r ∧
      (r = true ↔ ∀ x, (IntSet.mk [1, 2, 0] 2).contains x = .ok true ↔
        (IntSet.mk [2, 1, 7] 2).contains x = .ok true)) ∧
    ((IntSet.mk [1, 2, 0] 2).elems.Perm (IntSet.mk [2, 1, 7] 2).elems →
      equal (IntSet.mk [1, 2, 0] 2) (IntSet.mk [2, 1, 7] 2) = .ok true) ∧
    equal (IntSet.mk [1, 2, 0] 2) (IntSet.mk [1, 2, 0] 2) = .ok true ∧
    equal (IntSet.mk [1, 2, 0] 2) (IntSet.mk [2, 1, 7] 2) =
      equal (IntSet.mk [2, 1, 7] 2) (IntSet.mk [1, 2, 0] 2) :=
  equal_spec 3 (IntSet.mk [1, 2, 0] 2) (IntSet.mk [2, 1, 7] 2) (by decide) (by decide)

/-- C15: for every object state, whatever the array holds, `reset()` leaves the array as it
is and sets `used` to 0; afterwards `size()` is 0, `isEmpty()` is true and `contains(x)`
returns false for every `x`, without reading a cell. -/
theorem reset_empties (s : IntSet) (x : Int) :
    s.reset.size = 0 ∧ s.reset.isEmpty = true ∧ s.reset.contains x = .ok false ∧
      s.reset.data = s.data ∧ s.reset.elems = [] := by
  refine ⟨rfl, rfl, ?_, rfl, ?_⟩
  · simp [IntSet.reset, IntSet.contains, containsLoop]
  · simp [IntSet.reset, IntSet.elems]

/-! ## `intersect` -/

theorem elems_push (isC : IntSet) (x : Int) (hlt : isC.used < isC.data.length) :
    IntSet.elems { data := isC.data.set isC.used x, used := isC.used + 1 } =
      isC.elems ++ [x] := by
  have hlen : isC.elems.length = isC.used := by
    simp [IntSet.elems]
    omega
  apply List.ext_getElem?
  intro j
  rw [elems_getElem?]
  simp only
  rw [List.getElem?_set, List.getElem?_append, hlen, elems_getElem?]
  by_cases hj : j < isC.used
  · have : ¬ isC.used = j := by omega
    have : j < isC.used + 1 := by omega
    simp [*]
  · by_cases hj2 : isC.used = j
    · subst hj2
      simp [hlt]
    · have : ¬ j < isC.used + 1 := by omega
      have : 1 ≤ j - isC.used := by omega
      simp [*]

theorem rd_of_elems {MAX_SIZE : Nat} {s : IntSet} (hv : s.Valid MAX_SIZE) {i : Nat} {a : Int}
    (hi : i < s.used) (ha : s.data[i]? = some a) : rd s.data i = .ok a := by
  have hil : i < s.data.length := by have := hv.1; have := hv.2.1; omega
  rw [rd_of_lt hil]
  rw [List.getElem?_eq_getElem hil] at ha
  rw [Option.some.inj ha]

theorem intersectInner_absent {MAX_SIZE : Nat} {A B : IntSet} (hA : A.Valid MAX_SIZE)
    (hB : B.Valid MAX_SIZE) {i : Nat} {a : Int} (hi : i < A.used) (ha : A.data[i]? = some a) :
    ∀ (n j : Nat) (isC : IntSet), j + n = B.used → a ∉ B.elems.drop j →
      intersectInner A B i n j isC = .ok isC
  | 0, _, _, _, _ => by rw [intersectInner]
  | n + 1, j, isC, hjn, hnot => by
    obtain ⟨b, hb, hdrop, _⟩ := elems_split hB (by omega : j < B.used)
    rw [hdrop] at hnot
    have hne : ¬ a = b := fun h => hnot (by simp [h])
    rw [intersectInner, rd_of_elems hA hi ha, rd_of_elems hB (by omega) hb]
    simp only
    rw [if_neg hne]
    exact intersectInner_absent hA hB hi ha n (j + 1) isC (by omega)
      (fun h => hnot (List.mem_cons_of_mem _ h))

theorem intersectInner_present {MAX_SIZE : Nat} {A B : IntSet} (hA : A.Valid MAX_SIZE)
    (hB : B.Valid MAX_SIZE) {i : Nat} {a : Int} (hi : i < A.used) (ha : A.data[i]? = some a) :
    ∀ (n j : Nat) (isC : IntSet), j + n = B.used → a ∈ B.elems.drop j →
      isC.used < isC.data.length →
      intersectInner A B i n j isC =
        .ok { data := isC.data.set isC.used a, used := isC.used + 1 }
  | 0, j, _, hjn, hmem, _ => by
    have hl := elems_length hB
    have : B.elems.drop j = [] := List.drop_eq_nil_of_le (by omega)
    rw [this] at hmem
    simp at hmem
  | n + 1, j, isC, hjn, hmem, hroom => by
    obtain ⟨b, hb, hdrop, _⟩ := elems_split hB (by omega : j < B.used)
    have hnd : (B.elems.drop j).Nodup := List.Nodup.sublist (List.drop_sublist _ _) hB.2.2
    rw [hdrop] at hmem hnd
    rw [intersectInner, rd_of_elems hA hi ha, rd_of_elems hB (by omega) hb]
    simp only
    by_cases hab : a = b
    · rw [if_pos hab, wr_of_lt hroom]
      simp only
      apply intersectInner_absent hA hB hi ha n (j + 1) _ (by omega)
      rw [hab]
      exact (List.nodup_cons.mp hnd).1
    · rw [if_neg hab]
      have hmem' : a ∈ B.elems.drop (j + 1) := by
        rcases List.mem_cons.mp hmem with h | h
        · exact absurd h hab
        · exact h
      exact intersectInner_present hA hB hi ha n (j + 1) isC (by omega) hmem' hroom

theorem intersectOuter_spec {MAX_SIZE : Nat} {A B : IntSet} (hA : A.Valid MAX_SIZE)
    (hB : B.Valid MAX_SIZE) :
    ∀ (n i : Nat) (isC : IntSet), i + n = A.used → isC.data.length = MAX_SIZE →
      isC.used ≤ i →
      ∃ s1, intersectOuter A B n i isC = .ok s1 ∧ s1.data.length = MAX_SIZE ∧
        s1.used = isC.used +
          ((A.elems.drop i).filter (fun y => decide (y ∈ B.elems))).length ∧
        s1.elems = isC.elems ++ (A.elems.drop i).filter (fun y => decide (y ∈ B.elems))
  | 0, i, isC, hin, hlen, _ => by
    have hl := elems_length hA
    have : A.elems.drop i = [] := List.drop_eq_nil_of_le (by omega)
    refine ⟨isC, by rw [intersectOuter], hlen, ?_, ?_⟩ <;> simp [this]
  | n + 1, i, isC, hin, hlen, hle => by
    have hi : i < A.used := by omega
    have hA2 := hA.2.1
    obtain ⟨a, ha, hdrop, _⟩ := elems_split hA hi
    rw [intersectOuter]
    by_cases hmem : a ∈ B.elems
    · have hroom : isC.used < isC.data.length := by omega
      rw [show B.size = B.used from rfl,
        intersectInner_present hA hB hi ha B.used 0 isC (by omega) (by simpa using hmem) hroom]
      simp only
      obtain ⟨s1, hs, hl1, hu1, he1⟩ := intersectOuter_spec hA hB n (i + 1)
        { data := isC.data.set isC.used a, used := isC.used + 1 } (by omega)
        (by simpa using hlen) (by simp only; omega)
      refine ⟨s1, hs, hl1, ?_, ?_⟩
      · rw [hu1, hdrop, List.filter_cons_of_pos (by simpa using hmem)]
        simp only [List.length_cons]
        omega
      · rw [he1, elems_push isC a hroom, hdrop, List.filter_cons_of_pos (by simpa using hmem)]
        simp
    · rw [show B.size = B.used from rfl,
        intersectInner_absent hA hB hi ha B.used 0 isC (by omega) (by simpa using hmem)]
      simp only
      obtain ⟨s1, hs, hl1, hu1, he1⟩ := intersectOuter_spec hA hB n (i + 1) isC (by omega)
        hlen (by omega)
      refine ⟨s1, hs, hl1, ?_, ?_⟩
      · rw [hu1, hdrop, List.filter_cons_of_neg (by simpa using hmem)]
      · rw [he1, hdrop, List.filter_cons_of_neg (by simpa using hmem)]

theorem intersect_eq {MAX_SIZE : Nat} {A B : IntSet} (hA : A.Valid MAX_SIZE)
    (hB : B.Valid MAX_SIZE) {mem : List Int} (hmem : mem.length = MAX_SIZE) :
    ∃ s1, A.intersect mem B = .ok s1 ∧ s1.Valid MAX_SIZE ∧
      s1.elems = A.elems.filter (fun y => decide (y ∈ B.elems)) := by
  obtain ⟨s1, hs, hl1, hu1, he1⟩ := intersectOuter_spec hA hB A.used 0 (IntSet.new mem)
    (by omega) hmem (Nat.le_refl _)
  have he0 : (IntSet.new mem).elems = [] := by simp [IntSet.new, IntSet.elems]
  rw [he0] at he1
  simp only [List.drop_zero, List.nil_append] at he1 hu1
  refine ⟨s1, hs, ⟨hl1, ?_, ?_⟩, he1⟩
  · have h1 := List.length_filter_le (fun y => decide (y ∈ B.elems)) A.elems
    have h2 := elems_length hA
    have h3 := hA.2.1
    have h4 : (IntSet.new mem).used = 0 := rfl
    omega
  · rw [he1]
    exact hA.2.2.filter _

/-- C11: on valid sets, `A.intersect(B)` (its local set built on storage of `MAX_SIZE` cells)
returns a valid set whose element sequence is the elements of `A` that are in `B`, in `A`'s
order and without duplicates; `contains` on the result is true exactly for the values that
both `A.contains` and `B.contains` report. -/
theorem intersect_spec (MAX_SIZE : Nat) (mem : List Int) (A B : IntSet)
    (hmem : mem.length = MAX_SIZE) (hA : A.Valid MAX_SIZE) (hB : B.Valid MAX_SIZE) :
    ∃ s1, A.intersect mem B = .ok s1 ∧ s1.Valid MAX_SIZE ∧
      s1.elems = A.elems.filter (fun y => decide (y ∈ B.elems)) ∧
      ∀ x, s1.contains x = .ok true ↔ (A.contains x = .ok true ∧ B.contains x = .ok true) := by
  obtain ⟨s1, hs, hv, he⟩ := intersect_eq hA hB hmem
  refine ⟨s1, hs, hv, he, ?_⟩
  intro x
  rw [mem_elems_iff_contains hv, mem_elems_iff_contains hA, mem_elems_iff_contains hB, he]
  simp [List.mem_filter]

theorem intersect_spec_witness :
    (∃ s1, (IntSet.mk [1, 2, 3, 0] 3).intersect [9, 9, 9, 9] (IntSet.mk [3, 4, 0, 0] 2) = .ok s1 ∧
      s1.Valid 4 ∧
      s1.elems = (IntSet.mk [1, 2, 3, 0] 3).elems.filter
        (fun y => decide (y ∈ (IntSet.mk [3, 4, 0, 0] 2).elems)) ∧
      ∀ x, s1.contains x = .ok true ↔
        ((IntSet.mk [1, 2, 3, 0] 3).contains x = .ok true ∧
          (IntSet.mk [3, 4, 0, 0] 2).contains x = .ok true)) ∧
    ((IntSet.mk [1, 2, 3, 0] 3).intersect [9, 9, 9, 9] (IntSet.mk [3, 4, 0, 0] 2)).map
      IntSet.elems = .ok [3] :=
  ⟨intersect_spec 4 [9, 9, 9, 9] (IntSet.mk [1, 2, 3, 0] 3) (IntSet.mk [3, 4, 0, 0] 2) rfl
    (by decide) (by decide), rfl⟩

/-- C18: on valid sets, `A.intersect(B)` returns, and the size of the result is at most
`size(A)`, at most `size(B)` and at most `MAX_SIZE`. Every `isC.data[isC.used] = ...` it
executes therefore stays inside the array: a write at an index of `MAX_SIZE` or more is an
`outOfBounds` failure of the call, and the call does not fail. -/
theorem intersect_size_le (MAX_SIZE : Nat) (mem : List Int) (A B : IntSet)
    (hmem : mem.length = MAX_SIZE) (hA : A.Valid MAX_SIZE) (hB : B.Valid MAX_SIZE) :
    (∃ s1, A.intersect mem B = .ok s1 ∧ s1.size ≤ A.size ∧ s1.size ≤ B.size ∧
      s1.size ≤ MAX_SIZE) ∧
    (∀ (isC : IntSet) (v : Int), isC.data.length = MAX_SIZE → MAX_SIZE ≤ isC.used →
      wr isC.data isC.used v = .error .outOfBounds) := by
  constructor
  · obtain ⟨s1, hs, hv, he⟩ := intersect_eq hA hB hmem
    have hl1 := elems_length hv
    have hlA := elems_length hA
    have hlB := elems_length hB
    refine ⟨s1, hs, ?_, ?_, hv.2.1⟩
    · show s1.used ≤ A.used
      rw [← hl1, ← hlA, he]
      exact List.length_filter_le _ _
    · show s1.used ≤ B.used
      rw [← hl1, ← hlB]
      apply List.Subperm.length_le
      apply List.subperm_of_subset hv.2.2
      intro x hx
      rw [he, List.mem_filter] at hx
      simpa using hx.2
  · intro isC v hlen hge
    have : ¬ isC.used < isC.data.length := by omega
    simp [wr, this]

theorem intersect_size_le_witness :
    (∃ s1, (IntSet.mk [1, 2, 3] 3).intersect [9, 9, 9] (IntSet.mk [3, 2, 1] 3) = .ok s1 ∧
      s1.size ≤ (IntSet.mk [1, 2, 3] 3).size ∧ s1.size ≤ (IntSet.mk [3, 2, 1] 3).size ∧
      s1.size ≤ 3) ∧
    (∀ (isC : IntSet) (v : Int), isC.data.length = 3 → 3 ≤ isC.used →
      wr isC.data isC.used v = .error .outOfBounds) :=
  intersect_size_le 3 [9, 9, 9] (IntSet.mk [1, 2, 3] 3) (IntSet.mk [3, 2, 1] 3) rfl
    (by decide) (by decide)

/-! ## `DumpData` -/

theorem intercalate_go_append (out sep : String) :
    ∀ (l : List String) (acc : String),
      String.intercalate.go (out ++ acc) sep l = out ++ String.intercalate.go acc sep l
  | [], acc => by simp [String.intercalate.go]
  | a :: l, acc => by
    rw [String.intercalate.go, String.intercalate.go, String.append_assoc out,
      String.append_assoc out]
    exact intercalate_go_append out sep l (acc ++ sep ++ a)

theorem dumpLoop_eq {MAX_SIZE : Nat} {s : IntSet} (hv : s.Valid MAX_SIZE) :
    ∀ (n i : Nat) (out : String), i + n = s.used →
      dumpLoop s.data n i out =
        .ok (String.intercalate.go out dumpSep ((s.elems.drop i).map render))
  | 0, i, out, h => by
    have hl := elems_length hv
    have : s.elems.drop i = [] := List.drop_eq_nil_of_le (by omega)
    rw [dumpLoop, this]
    simp [String.intercalate.go]
  | n + 1, i, out, h => by
    obtain ⟨a, ha, hdrop, _⟩ := elems_split hv (by omega : i < s.used)
    rw [dumpLoop, rd_of_elems hv (by omega) ha]
    simp only
    rw [dumpLoop_eq hv n (i + 1) _ (by omega), hdrop, List.map_cons, String.intercalate.go]

/-- C16: on a valid set, `DumpData` appends to the stream the decimal renderings of the
elements in stored order, joined by the two-space separator: nothing before the first, nothing
after the last, no newline, and nothing at all when the set is empty. The call is `const`: it
has no effect on the object, only on the text. -/
theorem dumpData_spec (MAX_SIZE : Nat) (s : IntSet) (out : String) (hv : s.Valid MAX_SIZE) :
    s.DumpData out = .ok (out ++ String.intercalate dumpSep (s.elems.map render)) ∧
      (s.size = 0 → s.DumpData out = .ok out) ∧ dumpSep.data = [' ', ' '] := by
  refine ⟨?_, ?_, rfl⟩
  · unfold IntSet.DumpData
    by_cases h0 : 0 < s.used
    · obtain ⟨a, ha, hdrop, _⟩ := elems_split hv h0
      rw [if_pos h0, rd_of_elems hv h0 ha]
      simp only
      rw [dumpLoop_eq hv (s.used - 1) 1 _ (by omega)]
      simp only [List.drop_zero, zero_add] at hdrop
      rw [hdrop, List.map_cons, String.intercalate, intercalate_go_append]
      rfl
    · have hl := elems_length hv
      have : s.elems = [] := List.eq_nil_of_length_eq_zero (by omega)
      rw [if_neg h0, this]
      simp [String.intercalate]
  · intro h0
    have : ¬ 0 < s.used := by simp only [IntSet.size] at h0; omega
    simp [IntSet.DumpData, this]

theorem dumpData_spec_witness :
    ((IntSet.mk [1, -2, 30, 0] 3).DumpData (String.mk []) =
        .ok (String.mk [] ++
          String.intercalate dumpSep ((IntSet.mk [1, -2, 30, 0] 3).elems.map render)) ∧
      ((IntSet.mk [1, -2, 30, 0] 3).size = 0 →
        (IntSet.mk [1, -2, 30, 0] 3).DumpData (String.mk []) = .ok (String.mk [])) ∧
      dumpSep.data = [' ', ' ']) ∧
    (IntSet.mk [1, -2, 30, 0] 3).DumpData (String.mk []) =
      .ok (String.mk ['1', ' ', ' ', '-', '2', ' ', ' ', '3', '0']) :=
  ⟨dumpData_spec 4 (IntSet.mk [1, -2, 30, 0] 3) (String.mk []) (by decide), rfl⟩

/-! ## Claims about `subtract` -/

/-- C12: `subtract` does not return the claimed difference for all valid operands: for every
valid `A` with at least two elements, `A.subtract(A)` removes `data[0]` at `i = 0`, `j = 0`,
decrements `i` to -1 and, at `j = 1`, reads `isC.data[-1]`; the call stops with an access
outside the array instead of returning the empty set. -/
theorem subtract_self_reads_below_array (MAX_SIZE : Nat) (A : IntSet) (hA : A.Valid MAX_SIZE)
    (h2 : 2 ≤ A.size) : A.subtract A = .error .outOfBounds :=
  subtract_first_matched_early hA hA (show 0 + 1 < A.used from h2)
    (show 0 < A.used from Nat.lt_of_lt_of_le (by decide) h2) rfl

theorem subtract_self_reads_below_array_witness :
    (IntSet.mk [1, 2, 3] 3).subtract (IntSet.mk [1, 2, 3] 3) = .error .outOfBounds :=
  subtract_self_reads_below_array 3 (IntSet.mk [1, 2, 3] 3) (by decide) (by decide)

theorem removeEach_spec {MAX_SIZE : Nat} :
    ∀ (bs : List Int) (s : IntSet), s.Valid MAX_SIZE →
      ∃ s1, removeEach s bs = .ok s1 ∧ s1.Valid MAX_SIZE ∧
        s1.elems = s.elems.filter (fun y => decide (y ∉ bs))
  | [], s, hv => ⟨s, rfl, hv, by simp⟩
  | b :: bs, s, hv => by
    have step : ∃ s0 r, s.remove b = .ok (r, s0) ∧ s0.Valid MAX_SIZE ∧
        s0.elems = s.elems.filter (fun y => decide (y ≠ b)) := by
      by_cases hb : b ∈ s.elems
      · obtain ⟨d, hd, hdl, _, htake⟩ := remove_of_mem hv hb
        refine ⟨_, true, hd, valid_remove hv hdl htake, ?_⟩
        show d.take (s.used - 1) = _
        rw [htake, hv.2.2.erase_eq_filter]
        congr 1
        funext y
        rw [Bool.eq_iff_iff]
        simp
      · refine ⟨s, false, remove_of_not_mem hv hb, hv, ?_⟩
        symm
        rw [List.filter_eq_self]
        intro y hy
        have : y ≠ b := fun h => hb (h ▸ hy)
        simpa using this
    obtain ⟨s0, r, hs0, hv0, he0⟩ := step
    obtain ⟨s1, hs1, hv1, he1⟩ := removeEach_spec bs s0 hv0
    refine ⟨s1, ?_, hv1, ?_⟩
    · rw [removeEach, hs0]
      exact hs1
    · rw [he1, he0, List.filter_filter]
      congr 1
      funext y
      rw [Bool.eq_iff_iff]
      simp [and_comm]

/-- C17: `subtract` does not agree with repeated `remove` on all valid operands. Removing each
element of `B` from a copy of `A` always returns the elements of `A` that are not in `B`.
`A.subtract(B)` returns a set with the same element sequence and size only on the operands
where it does not read below the array; on the others (`subtractFaults`) it stops with an
access outside the array. -/
theorem subtract_vs_removeEach (MAX_SIZE : Nat) (A B : IntSet) (hA : A.Valid MAX_SIZE)
    (hB : B.Valid MAX_SIZE) :
    (∃ s2, removeEach A B.elems = .ok s2 ∧ s2.Valid MAX_SIZE ∧
      s2.elems = A.elems.filter (fun y => decide (y ∉ B.elems))) ∧
    (subtractFaults B A.elems = true → A.subtract B = .error .outOfBounds) ∧
    (subtractFaults B A.elems = false →
      ∃ s1 s2, A.subtract B = .ok s1 ∧ removeEach A B.elems = .ok s2 ∧
        s1.elems = s2.elems ∧ s1.size = s2.size) := by
  obtain ⟨s2, hs2, hv2, he2⟩ := removeEach_spec B.elems A hA
  obtain ⟨hf1, hf2⟩ := subtract_spec hB hA
  refine ⟨⟨s2, hs2, hv2, he2⟩, hf1, fun hf => ?_⟩
  obtain ⟨s1, hs1, hv1, he1⟩ := hf2 hf
  refine ⟨s1, s2, hs1, hs2, by rw [he1, he2], ?_⟩
  show s1.used = s2.used
  rw [← elems_length hv1, ← elems_length hv2, he1, he2]

theorem subtract_vs_removeEach_witness :
    ((∃ s2, removeEach (IntSet.mk [3, 4, 0] 2) (IntSet.mk [3, 1, 0] 2).elems = .ok s2 ∧
        s2.Valid 3 ∧
        s2.elems = (IntSet.mk [3, 4, 0] 2).elems.filter
          (fun y => decide (y ∉ (IntSet.mk [3, 1, 0] 2).elems))) ∧
      (subtractFaults (IntSet.mk [3, 1, 0] 2) (IntSet.mk [3, 4, 0] 2).elems = true →
        (IntSet.mk [3, 4, 0] 2).subtract (IntSet.mk [3, 1, 0] 2) = .error .outOfBounds) ∧
      (subtractFaults (IntSet.mk [3, 1, 0] 2) (IntSet.mk [3, 4, 0] 2).elems = false →
        ∃ s1 s2, (IntSet.mk [3, 4, 0] 2).subtract (IntSet.mk [3, 1, 0] 2) = .ok s1 ∧
          removeEach (IntSet.mk [3, 4, 0] 2) (IntSet.mk [3, 1, 0] 2).elems = .ok s2 ∧
          s1.elems = s2.elems ∧ s1.size = s2.size)) ∧
    (IntSet.mk [3, 4, 0] 2).subtract (IntSet.mk [3, 1, 0] 2) = .error .outOfBounds ∧
    removeEach (IntSet.mk [3, 4, 0] 2) (IntSet.mk [3, 1, 0] 2).elems =
      .ok (IntSet.mk [4, 4, 0] 1) :=
  ⟨subtract_vs_removeEach 3 (IntSet.mk [3, 4, 0] 2) (IntSet.mk [3, 1, 0] 2) (by decide)
    (by decide), rfl, rfl⟩

/-- C19: the index of `subtract` does not stay inside the working copy. When the first
element `a` of `A` is in `B` but is not `B`'s last element, the first pass of the inner loop
removes `a`, executes `--i` with `i = 0`, and its next comparison
`isC.data[i] == otherIntSet.data[j]` is made with `i = -1`: the pass, and with it
`A.subtract(B)`, stops with an access outside the array. -/
theorem subtract_index_negative (MAX_SIZE : Nat) (A B : IntSet) (a : Int)
    (hA : A.Valid MAX_SIZE) (hB : B.Valid MAX_SIZE) (h0 : 0 < A.size)
    (ha : A.data[0]? = some a) (hmem : a ∈ B.elems) (hnl : B.elems.indexOf a + 1 < B.size) :
    (∃ isC1, A.remove a = .ok (true, isC1) ∧
      rdI isC1.data ((0 : Int) - 1) = .error .outOfBounds) ∧
    subtractInner B B.size 0 A (0 : Int) = .error .outOfBounds ∧
    A.subtract B = .error .outOfBounds := by
  obtain ⟨isC1, hrem, _, _, _, _, hoob, _⟩ := subtractInner_present hB hA h0 ha hmem
  refine ⟨⟨isC1, hrem, by simp [rdI]⟩, hoob hnl rfl, ?_⟩
  apply (subtract_spec hB hA).1
  obtain ⟨a', ha', hdrop, _⟩ := elems_split hA h0
  have haa : a' = a := by
    rw [ha] at ha'
    exact (Option.some.inj ha').symm
  subst haa
  simp only [List.drop_zero, zero_add] at hdrop
  rw [hdrop]
  simp only [IntSet.size] at hnl
  simp [subtractFaults, hmem, hnl]

theorem subtract_index_negative_witness :
    (∃ isC1, (IntSet.mk [7, 8, 9, 0] 3).remove 7 = .ok (true, isC1) ∧
      rdI isC1.data ((0 : Int) - 1) = .error .outOfBounds) ∧
    subtractInner (IntSet.mk [7, 5, 0, 0] 2) (IntSet.mk [7, 5, 0, 0] 2).size 0
      (IntSet.mk [7, 8, 9, 0] 3) (0 : Int) = .error .outOfBounds ∧
    (IntSet.mk [7, 8, 9, 0] 3).subtract (IntSet.mk [7, 5, 0, 0] 2) = .error .outOfBounds :=
  subtract_index_negative 4 (IntSet.mk [7, 8, 9, 0] 3) (IntSet.mk [7, 5, 0, 0] 2) 7 (by decide)
    (by decide) (by decide) (by rfl) (by decide) (by decide)

/-! ## The `add` calls made by `unionWith` -/

theorem unionLoopAdds_fst (MAX_SIZE : Nat) (other : IntSet) :
    ∀ (n i : Nat) (isC : IntSet) (log : List Bool),
      (unionLoopAdds MAX_SIZE other n i isC log).map Prod.fst = unionLoop MAX_SIZE other n i isC
  | 0, _, _, _ => by simp [unionLoopAdds, unionLoop, Except.map]
  | n + 1, i, isC, log => by
    rw [unionLoopAdds, unionLoop]
    cases h1 : rd other.data i with
    | error e => simp [Except.map]
    | ok v =>
      simp only
      cases h2 : isC.contains v with
      | error e => simp [Except.map]
      | ok c =>
        simp only
        cases c with
        | true =>
          simp only [Bool.not_true, Bool.false_eq_true, if_false]
          exact unionLoopAdds_fst MAX_SIZE other n (i + 1) isC log
        | false =>
          simp only [Bool.not_false, if_true]
          cases h3 : isC.add MAX_SIZE v with
          | error e => simp [Except.map]
          | ok p =>
            obtain ⟨r, isC1⟩ := p
            simp only
            exact unionLoopAdds_fst MAX_SIZE other n (i + 1) isC1 (log ++ [r])

theorem unionLoopAdds_spec {MAX_SIZE : Nat} {B : IntSet} (hB : B.Valid MAX_SIZE) :
    ∀ (n i : Nat) (isC : IntSet) (log : List Bool), isC.Valid MAX_SIZE → i + n = B.used →
      isC.used + ((B.elems.drop i).filter (fun y => decide (y ∉ isC.elems))).length ≤ MAX_SIZE →
      ∃ s1, unionLoopAdds MAX_SIZE B n i isC log =
          .ok (s1, log ++ List.replicate
            ((B.elems.drop i).filter (fun y => decide (y ∉ isC.elems))).length true) ∧
        s1.elems = isC.elems ++ (B.elems.drop i).filter (fun y => decide (y ∉ isC.elems))
  | 0, i, isC, log, _, hin, _ => by
    have hl := elems_length hB
    have : B.elems.drop i = [] := List.drop_eq_nil_of_le (by omega)
    refine ⟨isC, ?_, ?_⟩
    · rw [unionLoopAdds, this]
      simp
    · rw [this]
      simp
  | n + 1, i, isC, log, hC, hin, hfit => by
    have hi : i < B.used := by omega
    obtain ⟨b, hb, hdrop, _⟩ := elems_split hB hi
    have hrd := rd_of_elems hB hi hb
    have hbnot : b ∉ B.elems.drop (i + 1) := by
      have hnd : (B.elems.drop i).Nodup := List.Nodup.sublist (List.drop_sublist _ _) hB.2.2
      rw [hdrop] at hnd
      exact (List.nodup_cons.mp hnd).1
    by_cases hmem : b ∈ isC.elems
    · have hfilt : (B.elems.drop i).filter (fun y => decide (y ∉ isC.elems)) =
          (B.elems.drop (i + 1)).filter (fun y => decide (y ∉ isC.elems)) := by
        rw [hdrop, List.filter_cons_of_neg (by simpa using hmem)]
      rw [hfilt] at hfit ⊢
      obtain ⟨s1, hs, he⟩ := unionLoopAdds_spec hB n (i + 1) isC log hC (by omega) hfit
      refine ⟨s1, ?_, he⟩
      rw [unionLoopAdds, hrd]
      simp only
      rw [contains_eq hC]
      simpa [hmem] using hs
    · have hfilt : (B.elems.drop i).filter (fun y => decide (y ∉ isC.elems)) =
          b :: (B.elems.drop (i + 1)).filter (fun y => decide (y ∉ isC.elems)) := by
        rw [hdrop, List.filter_cons_of_pos (by simpa using hmem)]
      rw [hfilt] at hfit ⊢
      have hlt : isC.used < MAX_SIZE := by
        simp only [List.length_cons] at hfit
        omega
      have hv1 := valid_add hC hmem hlt
      have he1 := elems_set_used hC b hlt
      have hsame : (B.elems.drop (i + 1)).filter (fun y => decide (y ∉ isC.elems ++ [b])) =
          (B.elems.drop (i + 1)).filter (fun y => decide (y ∉ isC.elems)) := by
        apply List.filter_congr
        intro y hy
        have : y ≠ b := fun h => hbnot (h ▸ hy)
        simp [this]
      obtain ⟨s1, hs, he⟩ := unionLoopAdds_spec hB n (i + 1) _ (log ++ [true]) hv1 (by omega)
        (by
          rw [he1, hsame]
          simp only [List.length_cons] at hfit
          show isC.used + 1 + _ ≤ MAX_SIZE
          omega)
      rw [he1, hsame] at hs he
      refine ⟨s1, ?_, ?_⟩
      · rw [unionLoopAdds, hrd]
        simp only
        rw [contains_eq hC]
        simp only [hmem, decide_False, Bool.not_false, if_true, add_of_not_mem hC hmem hlt]
        rw [hs]
        simp [List.replicate_succ]
      · rw [he]
        simp

/-- C20: on valid operands for which the assertion of `unionWith` holds (`B.subtract(A)`
returned `d` and `size(A) + size(d) ≤ MAX_SIZE`), `A.unionWith(B)` returns; its loop makes
exactly `size(d)` calls of `add`, each passes the assertion of `add` and returns true, the
result has `size(A) + size(d)` elements and holds every element of `B`. -/
theorem unionWith_adds_succeed (MAX_SIZE : Nat) (A B d : IntSet) (hA : A.Valid MAX_SIZE)
    (hB : B.Valid MAX_SIZE) (hd : B.subtract A = .ok d) (hfit : A.size + d.size ≤ MAX_SIZE) :
    ∃ s1 log, unionLoopAdds MAX_SIZE B B.size 0 A [] = .ok (s1, log) ∧
      A.unionWith MAX_SIZE B = .ok s1 ∧ (∀ r ∈ log, r = true) ∧ log.length = d.size ∧
      s1.size = A.size + d.size ∧ (∀ x ∈ B.elems, x ∈ s1.elems) := by
  obtain ⟨hs1, hs2⟩ := subtract_spec hA hB
  have hf : subtractFaults A B.elems = false := by
    cases hcase : subtractFaults A B.elems with
    | false => rfl
    | true =>
      rw [hs1 hcase] at hd
      cases hd
  obtain ⟨d', hd', hdv, hde⟩ := hs2 hf
  have hdd : d' = d := by
    rw [hd] at hd'
    exact (Except.ok.inj hd').symm
  subst hdd
  have hdl : d'.size = (B.elems.filter (fun y => decide (y ∉ A.elems))).length := by
    rw [← hde, elems_length hdv]
    rfl
  have hfit' : A.used +
      ((B.elems.drop 0).filter (fun y => decide (y ∉ A.elems))).length ≤ MAX_SIZE := by
    simp only [List.drop_zero]
    simp only [IntSet.size] at hfit hdl
    omega
  obtain ⟨s1, hs, he⟩ := unionLoopAdds_spec hB B.used 0 A [] hA (by omega) hfit'
  simp only [List.drop_zero, List.nil_append] at hs he
  have hloop : unionLoop MAX_SIZE B B.used 0 A = .ok s1 := by
    rw [← unionLoopAdds_fst MAX_SIZE B B.used 0 A [], hs]
    rfl
  obtain ⟨s1', hs', hv', _⟩ := unionLoop_spec hB B.used 0 A hA (by omega) hfit'
  have hss : s1' = s1 := by
    rw [hloop] at hs'
    exact (Except.ok.inj hs').symm
  subst hss
  refine ⟨s1', _, hs, ?_, ?_, ?_, ?_, ?_⟩
  · simp [IntSet.unionWith, hd, cassert, hfit]
    exact hloop
  · intro r hr
    exact (List.mem_replicate.mp hr).2
  · rw [List.length_replicate, hdl]
  · show s1'.used = A.used + d'.used
    have h1 := elems_length hv'
    have h2 := elems_length hA
    rw [he, List.length_append] at h1
    simp only [IntSet.size] at hdl
    omega
  · intro x hx
    rw [he, List.mem_append, List.mem_filter]
    by_cases hxA : x ∈ A.elems
    · exact Or.inl hxA
    · exact Or.inr ⟨hx, by simpa using hxA⟩

theorem unionWith_adds_succeed_witness :
    ∃ s1 log, unionLoopAdds 4 (IntSet.mk [3, 4, 0, 0] 2) (IntSet.mk [3, 4, 0, 0] 2).size 0
          (IntSet.mk [1, 2, 3, 0] 3) [] = .ok (s1, log) ∧
      (IntSet.mk [1, 2, 3, 0] 3).unionWith 4 (IntSet.mk [3, 4, 0, 0] 2) = .ok s1 ∧
      (∀ r ∈ log, r = true) ∧ log.length = (IntSet.mk [4, 4, 0, 0] 1).size ∧
      s1.size = (IntSet.mk [1, 2, 3, 0] 3).size + (IntSet.mk [4, 4, 0, 0] 1).size ∧
      (∀ x ∈ (IntSet.mk [3, 4, 0, 0] 2).elems, x ∈ s1.elems) :=
  unionWith_adds_succeed 4 (IntSet.mk [1, 2, 3, 0] 3) (IntSet.mk [3, 4, 0, 0] 2)
    (IntSet.mk [4, 4, 0, 0] 1) (by decide) (by decide) (by rfl) (by decide)

end IntSetModel
